import Mathlib

/-!
Shallow embedding of the bun-import-check sources (src/src/index.ts,
src/src/import.ts, src/src/resolver.ts) in Lean 4, together with theorems
settling the frozen claims about the program.

Conventions used throughout:
* JavaScript strings are modelled by Lean `String`, operated on through
  `String.data : List Char` so that every definition reduces in the kernel.
* JavaScript arrays used as stacks (the DFS `stack` and `path` in
  buildDependencyTreeAndDetectCycles) are modelled by Lean lists stored
  top-first: a JS `push` is `::` and the JS array is the `List.reverse`
  of the Lean list.
* External collaborators (Bun's transpiler scan, Bun's resolveSync,
  filesystem reads) are abstract function parameters.
* JS truthiness checks on strings (`if (resolved)`, `if (!path)`) are
  modelled explicitly: the empty string is falsy.
-/

namespace BunImportCheck

/-! ## JS-primitive models -/

/-- The single-quote character, written by code point. -/
def squote : Char := Char.ofNat 39

/-- The double-quote character, written by code point. -/
def dquote : Char := Char.ofNat 34

/-- The left-brace character, written by code point. -/
def lbrace : Char := Char.ofNat 123

/-- The right-brace character, written by code point. -/
def rbrace : Char := Char.ofNat 125

/-- JS Array.prototype.findIndex: index of first hit, or -1. -/
def jsFindIndex {α : Type} (p : α → Bool) (l : List α) : Int :=
  match l.findIdx? p with
  | some i => (i : Int)
  | none => -1

/-- JS Array.prototype.slice with a single (possibly negative) start index. -/
def jsSlice {α : Type} (l : List α) (i : Int) : List α :=
  l.drop (if i < 0 then (max ((l.length : Int) + i) 0).toNat else i.toNat)

/-- JS String.prototype.split with separator, on a character separator. -/
def splitCharAux (sep : Char) (acc : List Char) : List Char → List String
  | [] => [⟨acc.reverse⟩]
  | c :: cs => if c = sep then ⟨acc.reverse⟩ :: splitCharAux sep [] cs
               else splitCharAux sep (c :: acc) cs

/-- JS `content.split(sep)` for a one-character separator. -/
def splitChar (sep : Char) (s : String) : List String := splitCharAux sep [] s.data

/-- Kernel-friendly startsWith on strings. -/
def strStartsWith (s pre : String) : Bool := pre.data.isPrefixOf s.data

/-- Kernel-friendly endsWith on strings. -/
def strEndsWith (s suf : String) : Bool := suf.data.isSuffixOf s.data

/-- Drop the last n characters of a string (JS slice(0, -n)). -/
def strDropRight (s : String) (n : Nat) : String := ⟨s.data.take (s.data.length - n)⟩

/-! ## Regex machinery for src/src/import.ts

The three regular expressions of import.ts are embedded as explicit
backtracking matchers in the list-of-successes style: a prefix matcher maps
an input suffix to the list of possible remainders, in the backtracking
order of the JS regex engine (alternation left-to-right, greedy quantifiers
longest-first, optional groups present-first). -/

/-- JS \s character class (ASCII part). -/
def isWs (c : Char) : Bool :=
  c = ' ' || c = '\t' || c = '\n' || c = '\r' || c = Char.ofNat 11 || c = Char.ofNat 12

/-- JS `.` metacharacter: anything but a line terminator. -/
def isDotChar (c : Char) : Bool :=
  !(c = '\n' || c = '\r' || c = Char.ofNat 0x2028 || c = Char.ofNat 0x2029)

/-- Literal string piece of a regex. -/
def litP (s : List Char) (cs : List Char) : List (List Char) :=
  if s.isPrefixOf cs then [cs.drop s.length] else []

/-- One-or-more of a character class, greedy (longest remainder first). -/
def clsPlusP (p : Char → Bool) (cs : List Char) : List (List Char) :=
  let n := (cs.takeWhile p).length
  (List.range n).map (fun k => cs.drop (n - k))

/-- Zero-or-more of a character class, greedy. -/
def clsStarP (p : Char → Bool) (cs : List Char) : List (List Char) :=
  let n := (cs.takeWhile p).length
  (List.range (n + 1)).map (fun k => cs.drop (n - k))

/-- Exactly one character of a class. -/
def oneP (p : Char → Bool) (cs : List Char) : List (List Char) :=
  match cs with
  | c :: rest => if p c then [rest] else []
  | [] => []

/-- Sequencing of prefix matchers. -/
def seqP (a b : List Char → List (List Char)) (cs : List Char) : List (List Char) :=
  (a cs).flatMap b

/-- Alternation (left alternative preferred). -/
def altP (a b : List Char → List (List Char)) (cs : List Char) : List (List Char) :=
  a cs ++ b cs

/-- Optional piece (present preferred). -/
def optP (a : List Char → List (List Char)) (cs : List Char) : List (List Char) :=
  a cs ++ [cs]

/-- Quote character class of import.ts: a single or double quote. -/
def isQuote (c : Char) : Bool := c = squote || c = dquote

/-- The common tail ['"]([^'"]+)['"] of IMPORT_EXPORT_REGEX: a quote, a
nonempty run of non-quote characters (the capture), a quote.  The capture is
deterministic because the class [^'"]+ cannot cross a quote. -/
def quotedCapture (cs : List Char) : Option (String × List Char) :=
  match cs with
  | c :: rest =>
    if isQuote c then
      let cap := rest.takeWhile (fun d => !isQuote d)
      if cap.isEmpty then none
      else
        match rest.drop cap.length with
        | d :: rest2 => if isQuote d then some (⟨cap⟩, rest2) else none
        | [] => none
    else none
  | [] => none

/-- (?:import|export)? of IMPORT_EXPORT_REGEX. -/
def ieWord : List Char → List (List Char) :=
  optP (altP (litP ("import".data)) (litP ("export".data)))

/-- [^'"{}] class of IMPORT_EXPORT_REGEX. -/
def isIeName (c : Char) : Bool :=
  !(c = squote || c = dquote || c = lbrace || c = rbrace)

/-- First alternative \s+(?:[^'"{}]+\s+from\s+)? -/
def ieAlt1 : List Char → List (List Char) :=
  seqP (clsPlusP isWs)
    (optP (seqP (clsPlusP isIeName)
      (seqP (clsPlusP isWs) (seqP (litP ("from".data)) (clsPlusP isWs)))))

/-- Second alternative \s*\([^)]*\)\s*. -/
def ieAlt2 : List Char → List (List Char) :=
  seqP (clsStarP isWs)
    (seqP (litP ("(".data))
      (seqP (clsStarP (fun c => !(c = ')')))
        (seqP (litP (")".data)) (seqP (clsStarP isWs) (oneP isDotChar)))))

/-- Third alternative .*\s+from\s+ -/
def ieAlt3 : List Char → List (List Char) :=
  seqP (clsStarP isDotChar)
    (seqP (clsPlusP isWs) (seqP (litP ("from".data)) (clsPlusP isWs)))

/-- Everything of IMPORT_EXPORT_REGEX before the quoted capture. -/
def iePre : List Char → List (List Char) :=
  seqP ieWord (altP ieAlt1 (altP ieAlt2 ieAlt3))

/-- One match attempt of IMPORT_EXPORT_REGEX anchored at the given suffix:
first backtracking choice of the prefix whose continuation parses the quoted
capture wins. -/
def matchIEAt (cs : List Char) : Option (String × List Char) :=
  (iePre cs).findSome? quotedCapture

/-- DYNAMIC_IMPORT_REGEX prefix import\s*\(\s* -/
def dynPre : List Char → List (List Char) :=
  seqP (litP ("import".data))
    (seqP (clsStarP isWs) (seqP (litP ("(".data)) (clsStarP isWs)))

/-- One match attempt of DYNAMIC_IMPORT_REGEX anchored at the suffix:
prefix, quoted capture, \s*, closing parenthesis. -/
def matchDynAt (cs : List Char) : Option (String × List Char) :=
  (dynPre cs).findSome? (fun rest =>
    match quotedCapture rest with
    | some (cap, rest2) =>
      match rest2.drop ((rest2.takeWhile isWs).length) with
      | d :: rest4 => if d = ')' then some (cap, rest4) else none
      | [] => none
    | none => none)

/-- JS String.prototype.matchAll for a global regex: repeatedly take the
leftmost match and continue after it, collecting the capture groups.  The
fuel is the input length; every match of the regexes above consumes at least
one character, so the fuel never runs out on the inputs reached from
strings. -/
def scanCaptures (m : List Char → Option (String × List Char)) :
    Nat → List Char → List String
  | 0, _ => []
  | _ + 1, [] => []
  | fuel + 1, c :: rest =>
    match m (c :: rest) with
    | some (cap, rem) => cap :: scanCaptures m fuel rem
    | none => scanCaptures m fuel rest

/-- All captures of IMPORT_EXPORT_REGEX over a line (matchAll). -/
def importExportCaptures (line : String) : List String :=
  scanCaptures matchIEAt line.data.length line.data

/-- All captures of DYNAMIC_IMPORT_REGEX over a line (matchAll). -/
def dynamicCaptures (line : String) : List String :=
  scanCaptures matchDynAt line.data.length line.data

/-- IMPORT_TYPE_REGEX prefix (?:import|export)\s+type\s+{ -/
def typePre : List Char → List (List Char) :=
  seqP (altP (litP ("import".data)) (litP ("export".data)))
    (seqP (clsPlusP isWs)
      (seqP (litP ("type".data)) (seqP (clsPlusP isWs) (litP [lbrace]))))

/-- line.match(IMPORT_TYPE_REGEX) as a test: does the unanchored regex match
anywhere in the line? -/
def typeTest (line : String) : Bool :=
  line.data.tails.any (fun s => !(typePre s).isEmpty)

/-- src/src/import.ts hasImport: a static import/export match whose capture
equals the specifier counts only if the line does not match
IMPORT_TYPE_REGEX; a dynamic import match always counts. -/
def hasImport (line idOrPath : String) : Bool :=
  (importExportCaptures line).any (fun m => m == idOrPath && !typeTest line)
  || (dynamicCaptures line).any (fun m => m == idOrPath)

/-! ## Models of the node:path posix helpers used by the sources

These are external library functions (node:path).  They are modelled for
canonical inputs: absolute or plainly relative slash-separated paths without
trailing slashes, which is the shape of every path the program passes in. -/

/-- Model of node:path dirname (posix) for paths without a trailing slash. -/
def dirname (p : String) : String :=
  let cs := p.data
  let tailLen := (cs.reverse.takeWhile (fun c => !(c = '/'))).length
  if tailLen = cs.length then "."
  else if cs.length - tailLen - 1 = 0 then "/"
  else ⟨cs.take (cs.length - tailLen - 1)⟩

/-- One step of posix path normalization over segments; the accumulator is
kept reversed. -/
def normStep (abs : Bool) (acc : List String) (seg : String) : List String :=
  if seg = "" || seg = "." then acc
  else if seg = ".." then
    match acc with
    | [] => if abs then [] else [".."]
    | a :: rest => if a = ".." then seg :: acc else rest
  else seg :: acc

/-- Join a list of strings with a separator. -/
def joinSep (sep : String) : List String → String
  | [] => ""
  | [x] => x
  | x :: xs => x ++ sep ++ joinSep sep xs

/-- Model of node:path normalize (posix), ignoring trailing-slash
preservation. -/
def pathNormalize (p : String) : String :=
  let abs := strStartsWith p "/"
  let segs := ((splitChar '/' p).foldl (fun acc seg => normStep abs acc seg) []).reverse
  let body := joinSep "/" segs
  if abs then "/" ++ body else if body = "" then "." else body

/-- Model of node:path join (posix) on two parts. -/
def pathJoin (a b : String) : String := pathNormalize (a ++ "/" ++ b)

/-- Model of node:path resolve (posix) on a base and one part, for an
absolute base. -/
def pathResolve (base p : String) : String :=
  if strStartsWith p "/" then pathNormalize p else pathNormalize (base ++ "/" ++ p)

/-- Drop the common prefix of two segment lists. -/
def dropCommon : List String → List String → (List String × List String)
  | a :: as_, b :: bs =>
    if a = b then dropCommon as_ bs else (a :: as_, b :: bs)
  | as_, bs => (as_, bs)

/-- Model of node:path relative (posix) for absolute normalized inputs. -/
def pathRelative (fromPath toPath : String) : String :=
  let f := (splitChar '/' fromPath).filter (fun s => !(s = ""))
  let t := (splitChar '/' toPath).filter (fun s => !(s = ""))
  let (fr, tr) := dropCommon f t
  joinSep "/" (fr.map (fun _ => "..") ++ tr)

/-- JS String.prototype.indexOf for a character: first index or -1. -/
def jsIndexOfChar (s : String) (c : Char) : Int :=
  match s.data.findIdx? (fun d => d = c) with
  | some i => (i : Int)
  | none => -1

/-- First index at which pat occurs as a substring, if any. -/
def firstOccIdx (s pat : List Char) : Option Nat :=
  (List.range (s.length + 1)).find? (fun i => pat.isPrefixOf (s.drop i))

/-- JS String.prototype.replace with a plain-string pattern: replace the
first occurrence (dollar patterns in the replacement are not modelled; the
program never uses them). -/
def jsReplaceFirst (s pat repl : String) : String :=
  match firstOccIdx s.data pat.data with
  | some i => ⟨s.data.take i ++ repl.data ++ s.data.drop (i + pat.data.length)⟩
  | none => s

/-! ## src/src/resolver.ts -/

/-- JS \w character class. -/
def isWordChar (c : Char) : Bool := c.isAlpha || c.isDigit || c = '_'

/-- FILE_EXTENSION_REGEX = /\.\w+$/ as a test. -/
def fileExtTest (s : String) : Bool :=
  let r := s.data.reverse
  let w := r.takeWhile isWordChar
  !w.isEmpty &&
    (match r.drop w.length with
     | c :: _ => c = '.'
     | [] => false)

/-- RELATIVE_IMPORT_REGEX = /^\.\.?(\/|$)/ as a test. -/
def relativeImportTest (s : String) : Bool :=
  s = "." || s = ".." || strStartsWith s "./" || strStartsWith s "../"

/-- The twelve extensions matched by SUPPORTED_EXTENSION_REGEX =
/\.([mc]?[jt]sx?)$/. -/
def supportedExtList : List String :=
  ["js", "jsx", "ts", "tsx", "mjs", "mjsx", "mts", "mtsx", "cjs", "cjsx", "cts", "ctsx"]

/-- SUPPORTED_EXTENSION_REGEX as a test. -/
def supportedExtTest (s : String) : Bool :=
  supportedExtList.any (fun e => strEndsWith s ("." ++ e))

/-- Line-terminator class excluded by `.` in the query regexes. -/
def isRegexNewline (c : Char) : Bool :=
  c = '\n' || c = '\r' || c = Char.ofNat 0x2028 || c = Char.ofNat 0x2029

/-- First (leftmost) match of /[C...].+$/ for a set of start characters:
a start character followed by at least one character, with every following
character a `.`-character, running to the end of the string. -/
def tailParamsMatch (startChars : List Char) : List Char → Option (List Char)
  | [] => none
  | c :: cs =>
    if startChars.contains c && !cs.isEmpty && cs.all (fun d => !isRegexNewline d) then
      some (c :: cs)
    else tailParamsMatch startChars cs

/-- IMPORT_PARAMETERS = /\?.+$/ : the matched query suffix of a specifier. -/
def importParams (id : String) : Option String :=
  (tailParamsMatch ['?'] id.data).map (fun m => ⟨m⟩)

/-- importerPath.replace(/[#?].+$/, ''). -/
def stripImporterParams (p : String) : String :=
  match tailParamsMatch ['#', '?'] p.data with
  | some m => ⟨p.data.take (p.data.length - m.length)⟩
  | none => p

/-- path.replace(/\?.+$/, '') used by the includer. -/
def stripQueryTail (p : String) : String :=
  match tailParamsMatch ['?'] p.data with
  | some m => ⟨p.data.take (p.data.length - m.length)⟩
  | none => p

/-- Resolution = [resolvedPath, matched]. -/
abbrev Resolution := Option String × Bool

/-- A Resolver maps (idOrPath, importerPath) to a Resolution.  (The JS
resolver is async; promises are elided.) -/
abbrev ResolverFn := String → String → Resolution

/-- Assoc-list lookup, the model of JS object-record / Map indexing. -/
def lookupA {α : Type} : List (String × α) → String → Option α
  | [], _ => none
  | (k, v) :: t, f => if k = f then some v else lookupA t f

/-- ResolversByDir: directory of a config file to the resolvers derived
from configs rooted there. -/
abbrev ResolversByDir := List (String × List ResolverFn)

/-- isAmbiguousPathOrId of resolver.ts. -/
def isAmbiguousPathOrId (p : String) : Bool :=
  !relativeImportTest p && !strStartsWith p "/"

/-- Outcome of the inner resolver loop of resolveAmbiguous. -/
inductive TryOutcome where
  | found (p : String)
  | stop
  | next
deriving DecidableEq, Repr

/-- The inner `for (const resolver of resolvers)` loop of resolveAmbiguous:
a truthy resolved path is returned; otherwise a matched resolver breaks the
outer loop; otherwise the next resolver is tried. -/
def tryResolvers (id importer : String) : List ResolverFn → TryOutcome
  | [] => .next
  | r :: rs =>
    match r id importer with
    | (some p, matched) =>
      if !(p = "") then .found p
      else if matched then .stop
      else tryResolvers id importer rs
    | (none, matched) =>
      if matched then .stop
      else tryResolvers id importer rs

/-- The upward directory walk of resolveAmbiguous.  The JS loop
`while (projectDir && projectDir !== prevProjectDir)` is fueled; theorems
supply enough fuel for the chains they talk about. -/
def resolveAmbiguousGo (rbd : ResolversByDir) (id importer : String) :
    Nat → Option String → String → Option String
  | 0, _, _ => none
  | fuel + 1, prev, projectDir =>
    if projectDir = "" || prev = some projectDir then none
    else
      match lookupA rbd projectDir with
      | some resolvers =>
        match tryResolvers id importer resolvers with
        | .found p => some p
        | .stop => none
        | .next => resolveAmbiguousGo rbd id importer fuel (some projectDir) (dirname projectDir)
      | none => resolveAmbiguousGo rbd id importer fuel (some projectDir) (dirname projectDir)

/-- resolveAmbiguous of resolver.ts: walk upward from the importing file's
own directory. -/
def resolveAmbiguous (rbd : ResolversByDir) (id importer : String) (fuel : Nat) :
    Option String :=
  resolveAmbiguousGo rbd id importer fuel none (dirname importer)

/-- getPrefixLength of resolver.ts: pattern.indexOf('*'), -1 if absent. -/
def getPrefixLength (pattern : String) : Int := jsIndexOfChar pattern '*'

/-- Stable insertion (after equal elements) for the descending-by-prefix
sort; models the stable JS Array.prototype.sort with comparator
(a, b) => getPrefixLength(b) - getPrefixLength(a). -/
def insertByPrefixLen (x : String) : List String → List String
  | [] => [x]
  | y :: ys =>
    if getPrefixLength x ≤ getPrefixLength y then y :: insertByPrefixLen x ys
    else x :: y :: ys

/-- sortByPrefixLength of resolver.ts: Object.keys in insertion order,
stably sorted by descending prefix length. -/
def sortByPrefixLength (paths : List (String × List String)) : List String :=
  (paths.map Prod.fst).foldl (fun acc k => insertByPrefixLen k acc) []

/-- PathMapping; the compiled Glob is recomputed from the pattern. -/
structure PathMapping where
  pattern : String
  paths : List String
deriving DecidableEq, Repr

/-- resolvePathMappings of resolver.ts. -/
def resolvePathMappings (paths : List (String × List String)) (base : String) :
    List PathMapping :=
  (sortByPrefixLength paths).map (fun pattern =>
    { pattern := pattern
      paths := ((lookupA paths pattern).getD []).map (fun rp => pathResolve base rp) })

/-- Model of Bun Glob matching for the patterns the program compiles
(* within a segment, ** across segments and possibly zero segments,
everything else literal).  Fueled so that it is structurally recursive;
every recursive call shrinks pattern-plus-path, so the fuel globMatch
supplies never runs out. -/
def globMatchAux : Nat → List Char → List Char → Bool
  | 0, _, _ => false
  | fuel + 1, ps0, cs0 =>
    match ps0, cs0 with
    | [], [] => true
    | [], _ :: _ => false
    | '*' :: '*' :: ps, cs =>
      globMatchAux fuel ps cs ||
        (match ps with
         | '/' :: ps2 => globMatchAux fuel ps2 cs
         | _ => false) ||
        (match cs with
         | [] => false
         | _ :: cs2 => globMatchAux fuel ('*' :: '*' :: ps) cs2)
    | '*' :: ps, cs =>
      globMatchAux fuel ps cs ||
        (match cs with
         | [] => false
         | c :: cs2 => !(c = '/') && globMatchAux fuel ('*' :: ps) cs2)
    | _ :: _, [] => false
    | p :: ps, c :: cs => p == c && globMatchAux fuel ps cs

/-- Glob.match on strings. -/
def globMatch (pattern path : String) : Bool :=
  globMatchAux (pattern.data.length + path.data.length + 1) pattern.data path.data

/-- bunResolve of resolver.ts around the external resolveSync collaborator:
a file-like parent is replaced by its directory; a successful resolution is
[path, true], a failure NO_MATCH. -/
def bunResolveM (ext : String → String → Option String) (id parent : String) :
    Resolution :=
  let parent2 := if fileExtTest parent then dirname parent else parent
  match ext id parent2 with
  | some r => (some r, true)
  | none => (none, false)

/-- pattern.replace(/\/\*$/, ''). -/
def stripSlashStar (p : String) : String :=
  if strEndsWith p "/*" then strDropRight p 2 else p

/-- Inner candidate loop of resolveWithPaths over one mapping's target
paths; none means the loop exhausted and the outer loop continues. -/
def tryMappingPaths (ext : String → String → Option String)
    (mappingPattern id importer : String) : List String → Option Resolution
  | [] => none
  | path :: rest =>
    let mappedId :=
      if strEndsWith path "/*" then
        jsReplaceFirst id (stripSlashStar mappingPattern) (stripSlashStar path)
      else path
    let r := bunResolveM ext mappedId importer
    if r.2 then some r
    else tryMappingPaths ext mappingPattern id importer rest

/-- resolveWithPaths of createResolver: mappings in sorted order, glob
gate, candidate targets in order. -/
def resolveWithPaths (ext : String → String → Option String)
    (id importer : String) : List PathMapping → Resolution
  | [] => (none, false)
  | m :: ms =>
    if globMatch m.pattern id then
      match tryMappingPaths ext m.pattern id importer m.paths with
      | some r => r
      | none => resolveWithPaths ext id importer ms
    else resolveWithPaths ext id importer ms

/-- addCompiledGlob of resolver.ts. -/
def addCompiledGlob (pattern : String) : List String :=
  let lastSeg := ((splitChar '/' pattern).getLast?).getD ""
  let endsWithGlob := lastSeg.data.contains '*'
  let relativeGlob := if relativeImportTest pattern then pattern else "./" ++ pattern
  if endsWithGlob then [pattern]
  else [relativeGlob ++ "/**"] ++ (if fileExtTest pattern then [relativeGlob] else [])

/-- getIncluder of resolver.ts.  The JS default parameters apply when the
config fields are undefined (None); explicitly empty lists stay empty. -/
def getIncluder (includePaths excludePaths : Option (List String))
    (outDir : Option String) : String → Bool :=
  let inc := includePaths.getD ["**/*"]
  let exc0 := excludePaths.getD ["**/node_modules"]
  let exc := match outDir with
             | some od => exc0 ++ [od]
             | none => exc0
  if inc.length ≠ 0 ∨ exc.length ≠ 0 then
    let includers := inc.flatMap addCompiledGlob
    let excluders := exc.flatMap addCompiledGlob
    fun path =>
      let path2 := stripQueryTail path
      let path3 := if relativeImportTest path2 then path2 else "./" ++ path2
      !(excluders.any (fun g => globMatch g path3)) &&
        includers.any (fun g => globMatch g path3)
  else fun _ => true

/-- compilerOptions as consumed by createResolver. -/
structure CompilerOpts where
  baseUrl : Option String := none
  paths : Option (List (String × List String)) := none
  outDir : Option String := none

/-- TSConfig as consumed by createResolver (include/exclude are the
tsconfig `include` and `exclude` fields). -/
structure TSConfigM where
  files : Option (List String) := none
  includePatterns : Option (List String) := none
  excludePatterns : Option (List String) := none
  compilerOptions : Option CompilerOpts := none

/-- isExtendedTSConfig of resolver.ts. -/
def isExtendedTSConfig (config : TSConfigM) : Bool :=
  config.files = some [] && config.includePatterns = some []

/-- The environment captured by the closure createResolver returns. -/
structure ResolverEnv where
  configDir : String
  resolveIdOrPath : String → String → Resolution
  includer : String → Bool
  bunRes : String → String → Resolution

/-- The per-resolver resolution cache, a JS record keyed by specifier. -/
abbrev Cache := List (String × String)

/-- JS record assignment (overwrite or append). -/
def cacheSet : Cache → String → String → Cache
  | [], k, v => [(k, v)]
  | (k0, v0) :: t, k, v =>
    if k0 = k then (k0, v) :: t else (k0, v0) :: cacheSet t k v

/-- createResolver of resolver.ts, up to the returned closure: precomputes
the closure's captured environment, or none when the config contributes no
resolver. -/
def createResolver (ext : String → String → Option String)
    (tsconfigFile : String) (config : TSConfigM) : Option ResolverEnv :=
  let configPath := pathNormalize tsconfigFile
  if isExtendedTSConfig config then none
  else
    match config.compilerOptions with
    | none => none
    | some options =>
      -- JS truthiness of baseUrl: the empty string counts as absent here
      let baseUrlT : Option String :=
        match options.baseUrl with
        | some b => if b = "" then none else some b
        | none => none
      if baseUrlT = none ∧ options.paths = none then none
      else
        let resolveWithBaseUrl : Option (String → String → Resolution) :=
          baseUrlT.map (fun b => fun id imp => bunResolveM ext (pathJoin b id) imp)
        let resolveIdOrPath : String → String → Resolution :=
          match options.paths with
          | some ps =>
            -- the ?? fallback uses baseUrl without the truthiness filter
            let pathMappings :=
              resolvePathMappings ps (options.baseUrl.getD (dirname configPath))
            match resolveWithBaseUrl with
            | some rb =>
              fun id imp =>
                let r := resolveWithPaths ext id imp pathMappings
                if r = ((none : Option String), false) then rb id imp else r
            | none => fun id imp => resolveWithPaths ext id imp pathMappings
          | none =>
            match resolveWithBaseUrl with
            | some rb => rb
            | none => fun _ _ => (none, false)  -- unreachable by the guard above
        let configDir := dirname configPath
        let outDirRel : Option String :=
          options.outDir.map (fun od =>
            if strStartsWith od "/" then pathRelative configDir od else od)
        let includer := getIncluder config.includePatterns config.excludePatterns outDirRel
        some { configDir := configDir
               resolveIdOrPath := resolveIdOrPath
               includer := includer
               bunRes := fun id imp => bunResolveM ext id imp }

/-- Option-string truthiness: some nonempty string. -/
def truthy : Option String → Bool
  | some s => !(s = "")
  | none => false

/-- `[path && params ? path + params : path, true]`. -/
def appendParams (path : Option String) (params : Option String) : Option String :=
  match path, params with
  | some p, some ps => if !(p = "") && !(ps = "") then some (p ++ ps) else some p
  | some p, none => some p
  | none, _ => none

/-- The closure returned by createResolver, with the mutable
resolutionCache made explicit state. -/
def configResolverStep (env : ResolverEnv) (cache : Cache)
    (idOrPath importerPath : String) : Resolution × Cache :=
  let importerPathN := pathNormalize importerPath
  let importerFile := stripImporterParams importerPathN
  if !supportedExtTest importerFile then ((none, false), cache)
  else
    let relativeImporterFile := pathRelative env.configDir importerFile
    if !env.includer relativeImporterFile then ((none, false), cache)
    else
      let params := importParams idOrPath
      let id2 := match params with
                 | some ps => strDropRight idOrPath ps.data.length
                 | none => idOrPath
      -- `let path = resolutionCache[idOrPath]; if (!path) ...`
      let cached : Option String :=
        match lookupA cache id2 with
        | some p => if p = "" then none else some p
        | none => none
      match cached with
      | some path => ((appendParams (some path) params, true), cache)
      | none =>
        let r1 := env.resolveIdOrPath id2 importerFile
        if r1.2 && truthy r1.1 then
          ((appendParams r1.1 params, true), cacheSet cache id2 (r1.1.getD ""))
        else
          let r2 := env.bunRes id2 importerFile
          let cache2 :=
            if r2.2 && truthy r2.1 then cacheSet cache id2 (r2.1.getD "") else cache
          ((appendParams r2.1 params, true), cache2)

/-! ## src/src/index.ts: dependency graph builder and cycle detector

The external scanning/resolution pipeline of getImports is abstracted as a
Scanner: for each absolute file it yields the list of ImportInfo pairs
(original specifier, resolved absolute path), or an error when the scan
throws (unreadable file); pushToStack catches that error and records an
empty import list. -/

/-- The external getImports collaborator. -/
abbrev Scanner := String → Except Unit (List (String × String))

/-- The import list a file effectively contributes: the scanned list, or
the empty list recorded by pushToStack's catch block. -/
def effImports (g : Scanner) (f : String) : List (String × String) :=
  match g f with
  | .ok l => l
  | .error _ => []

/-- NodeStatus of index.ts. -/
inductive NodeStatus where
  | Unvisited
  | Visiting
  | Visited
deriving DecidableEq, Repr

/-- DependencyNode of index.ts (the exported shape: file and ImportInfo
edges; the internal status lives in the tree). -/
structure DependencyNode where
  file : String
  imports : List (String × String)
deriving DecidableEq, Repr, Inhabited

/-- DependencyTree: insertion-ordered map from absolute file identity to
node and status (Map.set appends new keys at the end). -/
abbrev DependencyTree := List (String × (DependencyNode × NodeStatus))

/-- StackItem of index.ts. -/
structure StackItem where
  file : String
  importIndex : Nat
deriving DecidableEq, Repr

/-- The mutable state of buildDependencyTreeAndDetectCycles.  stack and
path are stored top-first (JS push is cons, the JS array is the reverse). -/
structure BuildState where
  tree : DependencyTree
  cycles : List (List DependencyNode)
  stack : List StackItem
  path : List DependencyNode
deriving DecidableEq, Repr

/-- Set the status of the node stored under a file key. -/
def setStatus : DependencyTree → String → NodeStatus → DependencyTree
  | [], _, _ => []
  | (k, (n, st0)) :: t, f, st =>
    if k = f then (k, (n, st)) :: t else (k, (n, st0)) :: setStatus t f st

/-- pushToStack of index.ts: create the node on first discovery (with the
caught-error empty list folded into effImports), mark it Visiting, push the
frame and the path entry. -/
def pushToStack (g : Scanner) (s : BuildState) (file : String) : BuildState :=
  let tree1 :=
    match lookupA s.tree file with
    | some _ => s.tree
    | none => s.tree ++ [(file, (⟨file, effImports g file⟩, NodeStatus.Unvisited))]
  let node : DependencyNode :=
    match lookupA s.tree file with
    | some (n, _) => n
    | none => ⟨file, effImports g file⟩
  { tree := setStatus tree1 file NodeStatus.Visiting
    cycles := s.cycles
    stack := ⟨file, 0⟩ :: s.stack
    path := node :: s.path }

/-- One iteration of the while loop of buildDependencyTreeAndDetectCycles. -/
def step (g : Scanner) (s : BuildState) : BuildState :=
  match s.stack with
  | [] => s
  | current :: restStack =>
    match lookupA s.tree current.file with
    | none => s  -- tree.get(current.file)! cannot fail; dead branch
    | some (node, _) =>
      if current.importIndex ≥ node.imports.length then
        { s with tree := setStatus s.tree current.file NodeStatus.Visited
                 stack := restStack
                 path := s.path.tail }
      else
        let absolutePath := (node.imports.getD current.importIndex ("", "")).2
        let s1 : BuildState :=
          { s with stack := ⟨current.file, current.importIndex + 1⟩ :: restStack }
        match lookupA s.tree absolutePath with
        | none => pushToStack g s1 absolutePath
        | some (importedNode, st) =>
          if st = NodeStatus.Unvisited then pushToStack g s1 absolutePath
          else if st = NodeStatus.Visiting then
            let jsPath := s1.path.reverse
            let cycleStart := jsFindIndex (fun n => n.file == absolutePath) jsPath
            { s1 with cycles := s1.cycles ++ [jsSlice jsPath cycleStart ++ [importedNode]] }
          else s1

/-- The fueled while loop. -/
def run (g : Scanner) : Nat → BuildState → BuildState
  | 0, s => s
  | fuel + 1, s => if s.stack.isEmpty then s else run g fuel (step g s)

/-- The state right after the initial pushToStack(entryFile). -/
def initState (g : Scanner) (entryFile : String) : BuildState :=
  pushToStack g ⟨[], [], [], []⟩ entryFile

/-- buildDependencyTreeAndDetectCycles of index.ts (fueled; theorems
supply sufficient fuel). -/
def buildDependencyTreeAndDetectCycles (g : Scanner) (fuel : Nat)
    (entryFile : String) : BuildState :=
  run g fuel (initState g entryFile)

/-! ## src/src/index.ts: cycle enhancement -/

/-- EnhancedImportInfo of index.ts. -/
structure EnhancedImportInfo where
  importer : String
  importee : String
  originalImport : String
  lineNumber : Nat
  line : String
  contextLineBefore : Option String
  contextLineAfter : Option String
deriving DecidableEq, Repr

/-- EnhancedCycleInfo of index.ts. -/
structure EnhancedCycleInfo where
  cycle : List DependencyNode
  importInfo : List EnhancedImportInfo
deriving DecidableEq, Repr

/-- findImportLineInfo of index.ts; readFileSync is the abstract readF
collaborator (none models a read error). -/
def findImportLineInfo (readF : String → Option String)
    (importer importee : DependencyNode) : Option EnhancedImportInfo :=
  match readF importer.file with
  | none => none
  | some fileContent =>
    let lines := splitChar '\n' fileContent
    match importer.imports.find? (fun ip => ip.2 == importee.file) with
    | none => none
    | some importInfo =>
      let originalImport := importInfo.1
      match lines.findIdx? (fun l => hasImport l originalImport) with
      | none => none
      | some i =>
        some { importer := importer.file
               importee := importee.file
               originalImport := originalImport
               lineNumber := i + 1
               line := lines.getD i ""
               contextLineBefore := if i = 0 then none else lines[i - 1]?
               contextLineAfter := lines[i + 1]? }

/-- The per-cycle body of enhanceCyclesWithLineInfo.  The JS reference
comparison importer === importee coincides with structural equality because
all nodes of a recorded cycle are the canonical per-file tree nodes. -/
def enhanceCycle (readF : String → Option String)
    (cycle : List DependencyNode) : EnhancedCycleInfo :=
  { cycle := cycle
    importInfo := (List.range cycle.length).filterMap (fun i =>
      let importer := cycle.getD i default
      let importee := cycle.getD ((i + 1) % cycle.length) default
      if importer == importee then none
      else findImportLineInfo readF importer importee) }

/-- enhanceCyclesWithLineInfo of index.ts. -/
def enhanceCyclesWithLineInfo (readF : String → Option String)
    (cycles : List (List DependencyNode)) : List EnhancedCycleInfo :=
  cycles.map (enhanceCycle readF)

/-! ## Graph-theoretic view of a Scanner, and correctness machinery for the
iterative DFS -/

/-- The edge relation of the dependency graph a scanner induces. -/
def Edge (g : Scanner) (a b : String) : Prop :=
  b ∈ (effImports g a).map Prod.snd

/-- Reachability along import edges. -/
def Reach (g : Scanner) (a b : String) : Prop :=
  Relation.ReflTransGen (Edge g) a b

/-- The subgraph reachable from the entry contains no cycle. -/
def Acyclic (g : Scanner) (entry : String) : Prop :=
  ∀ f, Reach g entry f → ¬ Relation.TransGen (Edge g) f f

/-- The key set of the tree under construction. -/
def treeKeys (s : BuildState) : List String := s.tree.map Prod.fst

/-- A finite universe closed under import edges. -/
def ClosedList (g : Scanner) (L : List String) : Prop :=
  ∀ f ∈ L, ∀ ip ∈ effImports g f, ip.2 ∈ L

/-- Largest import-list length over a universe. -/
def maxImp (g : Scanner) (L : List String) : Nat :=
  (L.map (fun f => (effImports g f).length)).foldr max 0

/-- Remaining work of one stack frame. -/
def stackWork (g : Scanner) (fr : StackItem) : Nat :=
  2 * ((effImports g fr.file).length - fr.importIndex)

/-- Termination measure of the DFS loop over a finite closed universe. -/
def dfsMeasure (g : Scanner) (L : List String) (s : BuildState) : Nat :=
  (2 * maxImp g L + 2) * ((L.filter (fun f => (lookupA s.tree f).isNone)).length)
    + (s.stack.map (stackWork g)).sum + s.stack.length

/-- Fuel sufficient for a whole run from the initial state. -/
def fuelBound (g : Scanner) (L : List String) : Nat :=
  (2 * maxImp g L + 2) * (L.length + 1)

theorem lookupA_eq_none_iff {α : Type} :
    ∀ (t : List (String × α)) (f : String), lookupA t f = none ↔ f ∉ t.map Prod.fst
  | [], f => by simp [lookupA]
  | (k, v) :: t, f => by
    by_cases h : k = f
    · rw [lookupA, if_pos h]
      simp only [List.map_cons, List.mem_cons]
      constructor
      · intro hfalse
        exact absurd hfalse (by simp)
      · intro hn
        exact absurd (Or.inl h.symm) hn
    · rw [lookupA, if_neg h, lookupA_eq_none_iff t f]
      simp only [List.map_cons, List.mem_cons]
      constructor
      · intro hn hor
        rcases hor with h1 | h1
        · exact h h1.symm
        · exact hn h1
      · intro hn h1
        exact hn (Or.inr h1)

theorem lookupA_mem {α : Type} :
    ∀ {t : List (String × α)} {f : String} {v : α},
      lookupA t f = some v → (f, v) ∈ t
  | [], f, v, h => by simp [lookupA] at h
  | (k, w) :: t, f, v, h => by
    by_cases hk : k = f
    · rw [lookupA, if_pos hk] at h
      injection h with h
      rw [← hk, ← h]
      exact List.mem_cons_self _ _
    · rw [lookupA, if_neg hk] at h
      exact List.mem_cons_of_mem _ (lookupA_mem h)

theorem mem_keys_of_lookupA {α : Type} {t : List (String × α)} {f : String} {v : α}
    (h : lookupA t f = some v) : f ∈ t.map Prod.fst := by
  have := lookupA_mem h
  exact List.mem_map.mpr ⟨(f, v), this, rfl⟩

theorem lookupA_of_mem {α : Type} :
    ∀ {t : List (String × α)} {f : String} {v : α},
      (t.map Prod.fst).Nodup → (f, v) ∈ t → lookupA t f = some v
  | [], f, v, _, h => by simp at h
  | (k, w) :: t, f, v, hNd, h => by
    simp only [List.map_cons, List.nodup_cons] at hNd
    rcases List.mem_cons.mp h with h1 | h1
    · obtain ⟨hf, hv⟩ := Prod.mk.injEq _ _ _ _ ▸ h1
      rw [lookupA, if_pos hf.symm]
      exact congrArg some hv.symm
    · have hk : ¬ k = f := by
        intro hkf
        apply hNd.1
        rw [hkf]
        exact List.mem_map.mpr ⟨(f, v), h1, rfl⟩
      rw [lookupA, if_neg hk]
      exact lookupA_of_mem hNd.2 h1

theorem lookupA_append_of_some {α : Type} {t1 : List (String × α)} (t2 : List (String × α))
    {f : String} {v : α} (h : lookupA t1 f = some v) : lookupA (t1 ++ t2) f = some v := by
  induction t1 with
  | nil => simp [lookupA] at h
  | cons p t ih =>
    obtain ⟨k, w⟩ := p
    by_cases hk : k = f
    · subst hk; simp_all [lookupA]
    · simp [lookupA, hk] at h ⊢
      exact ih h

theorem lookupA_append_of_none {α : Type} {t1 : List (String × α)} (t2 : List (String × α))
    {f : String} (h : lookupA t1 f = none) : lookupA (t1 ++ t2) f = lookupA t2 f := by
  induction t1 with
  | nil => simp
  | cons p t ih =>
    obtain ⟨k, w⟩ := p
    by_cases hk : k = f
    · subst hk; simp [lookupA] at h
    · simp [lookupA, hk] at h ⊢
      exact ih h

theorem setStatus_keys (t : DependencyTree) (f : String) (st : NodeStatus) :
    (setStatus t f st).map Prod.fst = t.map Prod.fst := by
  induction t with
  | nil => simp [setStatus]
  | cons p t ih =>
    obtain ⟨k, n, st0⟩ := p
    by_cases hk : k = f
    · simp [setStatus, hk]
    · simp [setStatus, hk, ih]

theorem lookupA_setStatus_self {t : DependencyTree} {f : String} {n : DependencyNode}
    {st0 : NodeStatus} (st : NodeStatus) (h : lookupA t f = some (n, st0)) :
    lookupA (setStatus t f st) f = some (n, st) := by
  induction t with
  | nil => simp [lookupA] at h
  | cons p t ih =>
    obtain ⟨k, m, st1⟩ := p
    by_cases hk : k = f
    · subst hk
      simp [lookupA] at h
      simp [setStatus, lookupA, h.1]
    · simp [lookupA, hk] at h
      simp [setStatus, lookupA, hk]
      exact ih h

theorem lookupA_setStatus_ne {t : DependencyTree} {f f' : String} (st : NodeStatus)
    (h : ¬ f' = f) : lookupA (setStatus t f st) f' = lookupA t f' := by
  induction t with
  | nil => simp [setStatus]
  | cons p t ih =>
    obtain ⟨k, m, st1⟩ := p
    by_cases hk : k = f
    · subst hk
      have : ¬ k = f' := fun hh => h hh.symm
      simp [setStatus, lookupA, this]
    · by_cases hk' : k = f'
      · subst hk'
        simp [setStatus, lookupA, hk]
      · simp [setStatus, lookupA, hk, hk', ih]

theorem setStatus_append_right {t1 : DependencyTree} (t2 : DependencyTree) {f : String}
    (st : NodeStatus) (h : lookupA t1 f = none) :
    setStatus (t1 ++ t2) f st = t1 ++ setStatus t2 f st := by
  induction t1 with
  | nil => simp
  | cons p t ih =>
    obtain ⟨k, m, st1⟩ := p
    by_cases hk : k = f
    · subst hk; simp [lookupA] at h
    · simp [lookupA, hk] at h
      simp [setStatus, hk, ih h]

theorem mem_setStatus {t : DependencyTree} {f : String} {st : NodeStatus}
    {p : String × (DependencyNode × NodeStatus)} (h : p ∈ setStatus t f st) :
    p ∈ t ∨ (p.1 = f ∧ p.2.2 = st ∧ ∃ st0, (p.1, (p.2.1, st0)) ∈ t) := by
  induction t with
  | nil => simp [setStatus] at h
  | cons q t ih =>
    obtain ⟨k, m, st1⟩ := q
    by_cases hk : k = f
    · subst hk
      simp [setStatus] at h
      rcases h with h | h
      · subst h
        exact Or.inr ⟨rfl, rfl, st1, by simp⟩
      · exact Or.inl (List.mem_cons_of_mem _ h)
    · simp [setStatus, hk] at h
      rcases h with h | h
      · subst h; exact Or.inl (List.mem_cons_self _ _)
      · rcases ih h with h2 | h2
        · exact Or.inl (List.mem_cons_of_mem _ h2)
        · exact Or.inr ⟨h2.1, h2.2.1, h2.2.2.choose, List.mem_cons_of_mem _ h2.2.2.choose_spec⟩

theorem le_maxImp (g : Scanner) :
    ∀ (L : List String) (f : String), f ∈ L → (effImports g f).length ≤ maxImp g L
  | [], f, h => by simp at h
  | x :: L, f, h => by
    simp only [maxImp, List.map_cons, List.foldr_cons]
    rcases List.mem_cons.mp h with h1 | h1
    · subst h1
      exact le_max_left _ _
    · exact le_trans (le_maxImp g L f h1) (le_max_right _ _)

theorem filter_length_succ (p q : String → Bool) (t : String)
    (hq : ∀ f, q f = (p f && !(f = t))) (hpt : p t = true) :
    ∀ (L : List String), L.Nodup → t ∈ L →
      (L.filter q).length + 1 = (L.filter p).length
  | [], _, htL => by simp at htL
  | x :: L, hNd, htL => by
    rcases List.mem_cons.mp htL with h1 | h1
    · rw [← h1] at hNd ⊢
      have hqx : q t = false := by
        rw [hq]
        simp
      have hx : t ∉ L := (List.nodup_cons.mp hNd).1
      have hfp : L.filter q = L.filter p := by
        apply List.filter_congr
        intro f hf
        rw [hq]
        have : ¬ f = t := fun h => hx (h ▸ hf)
        simp [this]
      simp [List.filter_cons, hqx, hpt, hfp]
    · have hNd' := (List.nodup_cons.mp hNd).2
      by_cases hpx : p x = true
      · by_cases hxt : x = t
        · subst hxt
          exact absurd h1 (List.nodup_cons.mp hNd).1
        · have hqx : q x = true := by
            rw [hq]
            simp [hpx, hxt]
          simp only [List.filter_cons, hpx, hqx, if_true, List.length_cons]
          rw [Nat.add_right_comm]
          rw [filter_length_succ p q t hq hpt L hNd' h1]
      · have hqx : q x = false := by
          rw [hq]
          simp [Bool.eq_false_iff.mpr hpx]
        simp only [List.filter_cons, hqx, Bool.eq_false_iff.mpr hpx, if_false,
          Bool.false_eq_true]
        exact filter_length_succ p q t hq hpt L hNd' h1

theorem reach_mem_of_closed {g : Scanner} {L : List String} {entry f : String}
    (hC : ClosedList g L) (hE : entry ∈ L) (h : Reach g entry f) : f ∈ L := by
  induction h with
  | refl => exact hE
  | tail _ hbc ih =>
    rcases List.mem_map.mp hbc with ⟨ip, hip, hip2⟩
    exact hip2 ▸ hC _ ih ip hip

theorem transGen_rank_lt {α : Type} {r : α → α → Prop} (rank : α → Nat)
    (h : ∀ x y, r x y → rank x < rank y) {a b : α}
    (hab : Relation.TransGen r a b) : rank a < rank b := by
  induction hab with
  | single h1 => exact h _ _ h1
  | tail _ h1 ih => exact lt_trans ih (h _ _ h1)

theorem reach_getLast {g : Scanner} :
    ∀ (l : List DependencyNode), List.Chain' (fun x y => Edge g x.file y.file) l →
      ∀ a ∈ l, ∀ (hne : l ≠ []), Relation.ReflTransGen (Edge g) a.file ((l.getLast hne).file)
  | [], _, a, ha, hne => by simp at ha
  | [x], _, a, ha, hne => by
    simp at ha
    subst ha
    exact Relation.ReflTransGen.refl
  | x :: y :: rest, hc, a, ha, hne => by
    have hc' := (List.chain'_cons.mp hc)
    have hlast : (x :: y :: rest).getLast hne = (y :: rest).getLast (by simp) := by
      exact List.getLast_cons (by simp)
    rcases List.mem_cons.mp ha with h1 | h1
    · subst h1
      have := reach_getLast (y :: rest) hc'.2 y (List.mem_cons_self _ _) (by simp)
      rw [hlast]
      exact Relation.ReflTransGen.head hc'.1 this
    · rw [hlast]
      exact reach_getLast (y :: rest) hc'.2 a h1 (by simp)

/-- The loop invariant of buildDependencyTreeAndDetectCycles. -/
structure Inv (g : Scanner) (entry : String) (s : BuildState) : Prop where
  keysNodup : (s.tree.map Prod.fst).Nodup
  nodesOK : ∀ p ∈ s.tree,
    p.2.1.file = p.1 ∧ p.2.1.imports = effImports g p.1 ∧ p.2.2 ≠ NodeStatus.Unvisited
  stackPath : s.stack.map StackItem.file = s.path.map DependencyNode.file
  pathTree : ∀ nd ∈ s.path, lookupA s.tree nd.file = some (nd, NodeStatus.Visiting)
  visitingPath : ∀ f n, lookupA s.tree f = some (n, NodeStatus.Visiting) →
    f ∈ s.path.map DependencyNode.file
  pathNodup : (s.path.map DependencyNode.file).Nodup
  chainE : List.Chain' (fun a b => Edge g a.file b.file) s.path.reverse
  keysReach : ∀ f ∈ s.tree.map Prod.fst, Reach g entry f
  frames : ∀ fr ∈ s.stack, fr.importIndex ≤ (effImports g fr.file).length ∧
    ∀ ip ∈ (effImports g fr.file).take fr.importIndex, ip.2 ∈ s.tree.map Prod.fst
  visitedClosed : ∀ p ∈ s.tree, p.2.2 = NodeStatus.Visited →
    ∀ ip ∈ p.2.1.imports, ip.2 ∈ s.tree.map Prod.fst
  entryMem : entry ∈ s.tree.map Prod.fst

theorem initState_eq (g : Scanner) (entry : String) :
    initState g entry =
      ⟨[(entry, (⟨entry, effImports g entry⟩, NodeStatus.Visiting))], [],
        [⟨entry, 0⟩], [⟨entry, effImports g entry⟩]⟩ := by
  simp [initState, pushToStack, lookupA, setStatus]

theorem inv_init (g : Scanner) (entry : String) : Inv g entry (initState g entry) := by
  rw [initState_eq]
  constructor
  · simp
  · intro p hp
    simp at hp
    subst hp
    simp
  · simp
  · intro nd hnd
    simp at hnd
    subst hnd
    simp [lookupA]
  · intro f n h
    simp [lookupA] at h
    simp [h.1.symm]
  · simp
  · simp
  · intro f hf
    simp at hf
    subst hf
    exact Relation.ReflTransGen.refl
  · intro fr hfr
    simp at hfr
    subst hfr
    simp
  · intro p hp h
    simp at hp
    subst hp
    simp at h
  · simp

theorem pushToStack_eq_new (g : Scanner) (tree : DependencyTree)
    (cycles : List (List DependencyNode)) (stack : List StackItem)
    (path : List DependencyNode) (file : String) (h : lookupA tree file = none) :
    pushToStack g ⟨tree, cycles, stack, path⟩ file =
      ⟨tree ++ [(file, (⟨file, effImports g file⟩, NodeStatus.Visiting))], cycles,
        ⟨file, 0⟩ :: stack, ⟨file, effImports g file⟩ :: path⟩ := by
  unfold pushToStack
  rw [show (⟨tree, cycles, stack, path⟩ : BuildState).tree = tree from rfl]
  rw [h]
  simp only []
  rw [setStatus_append_right _ _ h]
  simp [setStatus]

theorem step_eq_pop (g : Scanner) (tree : DependencyTree)
    (cycles : List (List DependencyNode)) (current : StackItem)
    (restStack : List StackItem) (path : List DependencyNode)
    (node : DependencyNode) (st : NodeStatus)
    (hlk : lookupA tree current.file = some (node, st))
    (hidx : current.importIndex ≥ node.imports.length) :
    step g ⟨tree, cycles, current :: restStack, path⟩ =
      ⟨setStatus tree current.file NodeStatus.Visited, cycles, restStack, path.tail⟩ := by
  unfold step
  rw [show (⟨tree, cycles, current :: restStack, path⟩ : BuildState).stack
        = current :: restStack from rfl]
  simp only []
  rw [hlk]
  simp only []
  rw [if_pos hidx]

theorem step_eq_push (g : Scanner) (tree : DependencyTree)
    (cycles : List (List DependencyNode)) (current : StackItem)
    (restStack : List StackItem) (path : List DependencyNode)
    (node : DependencyNode) (st : NodeStatus) (ap : String)
    (hlk : lookupA tree current.file = some (node, st))
    (hidx : ¬ current.importIndex ≥ node.imports.length)
    (hap : ap = (node.imports.getD current.importIndex ("", "")).2)
    (hlk2 : lookupA tree ap = none) :
    step g ⟨tree, cycles, current :: restStack, path⟩ =
      pushToStack g
        ⟨tree, cycles, ⟨current.file, current.importIndex + 1⟩ :: restStack, path⟩ ap := by
  unfold step
  simp only []
  rw [hlk]
  simp only []
  rw [if_neg hidx, ← hap, hlk2]

theorem step_eq_visiting (g : Scanner) (tree : DependencyTree)
    (cycles : List (List DependencyNode)) (current : StackItem)
    (restStack : List StackItem) (path : List DependencyNode)
    (node : DependencyNode) (st : NodeStatus) (ap : String) (tn : DependencyNode)
    (hlk : lookupA tree current.file = some (node, st))
    (hidx : ¬ current.importIndex ≥ node.imports.length)
    (hap : ap = (node.imports.getD current.importIndex ("", "")).2)
    (hlk2 : lookupA tree ap = some (tn, NodeStatus.Visiting)) :
    step g ⟨tree, cycles, current :: restStack, path⟩ =
      ⟨tree,
        cycles ++ [jsSlice path.reverse (jsFindIndex (fun n => n.file == ap) path.reverse) ++ [tn]],
        ⟨current.file, current.importIndex + 1⟩ :: restStack, path⟩ := by
  unfold step
  simp only []
  rw [hlk]
  simp only []
  rw [if_neg hidx, ← hap, hlk2]
  simp

theorem step_eq_visited (g : Scanner) (tree : DependencyTree)
    (cycles : List (List DependencyNode)) (current : StackItem)
    (restStack : List StackItem) (path : List DependencyNode)
    (node : DependencyNode) (st : NodeStatus) (ap : String) (tn : DependencyNode)
    (hlk : lookupA tree current.file = some (node, st))
    (hidx : ¬ current.importIndex ≥ node.imports.length)
    (hap : ap = (node.imports.getD current.importIndex ("", "")).2)
    (hlk2 : lookupA tree ap = some (tn, NodeStatus.Visited)) :
    step g ⟨tree, cycles, current :: restStack, path⟩ =
      ⟨tree, cycles, ⟨current.file, current.importIndex + 1⟩ :: restStack, path⟩ := by
  unfold step
  simp only []
  rw [hlk]
  simp only []
  rw [if_neg hidx, ← hap, hlk2]
  simp

theorem pathFiles_sub_keys {g : Scanner} {entry : String} {s : BuildState}
    (hInv : Inv g entry s) {f : String} (h : f ∈ s.path.map DependencyNode.file) :
    f ∈ s.tree.map Prod.fst := by
  obtain ⟨nd, hnd, rfl⟩ := List.mem_map.mp h
  exact mem_keys_of_lookupA (hInv.pathTree nd hnd)

theorem inv_pop (g : Scanner) (entry : String) (tree : DependencyTree)
    (cycles : List (List DependencyNode)) (current : StackItem)
    (restStack : List StackItem) (nd0 : DependencyNode) (ptail : List DependencyNode)
    (hInv : Inv g entry ⟨tree, cycles, current :: restStack, nd0 :: ptail⟩)
    (hfile : current.file = nd0.file)
    (hidx : current.importIndex ≥ nd0.imports.length) :
    Inv g entry ⟨setStatus tree current.file NodeStatus.Visited, cycles, restStack, ptail⟩ := by
  have hnd0 : lookupA tree nd0.file = some (nd0, NodeStatus.Visiting) :=
    hInv.pathTree nd0 (List.mem_cons_self _ _)
  have hlk : lookupA tree current.file = some (nd0, NodeStatus.Visiting) := by
    rw [hfile]; exact hnd0
  have hsp := hInv.stackPath
  simp only [List.map_cons] at hsp
  injection hsp with hfile2 htails
  have hpn := hInv.pathNodup
  simp only [List.map_cons, List.nodup_cons] at hpn
  have hfull : nd0.imports.take current.importIndex = nd0.imports :=
    List.take_of_length_le hidx
  have himports : nd0.imports = effImports g current.file :=
    ((hInv.nodesOK _ (lookupA_mem hlk)).2.1).trans (by rw [hfile])
  constructor
  · rw [show (⟨setStatus tree current.file NodeStatus.Visited, cycles, restStack, ptail⟩ :
        BuildState).tree = setStatus tree current.file NodeStatus.Visited from rfl,
      setStatus_keys]
    exact hInv.keysNodup
  · intro p hp
    rcases mem_setStatus hp with h | ⟨h1, h2, st0, h3⟩
    · exact hInv.nodesOK p h
    · have := hInv.nodesOK _ h3
      exact ⟨this.1, this.2.1, by rw [h2]; simp⟩
  · exact htails
  · intro nd hnd
    have hne : ¬ nd.file = current.file := by
      rw [hfile]
      intro hcon
      exact hpn.1 (hcon ▸ List.mem_map.mpr ⟨nd, hnd, rfl⟩)
    rw [show (⟨setStatus tree current.file NodeStatus.Visited, cycles, restStack, ptail⟩ :
        BuildState).tree = setStatus tree current.file NodeStatus.Visited from rfl,
      lookupA_setStatus_ne _ hne]
    exact hInv.pathTree nd (List.mem_cons_of_mem _ hnd)
  · intro f n h
    simp only at h
    by_cases hf : f = current.file
    · subst hf
      rw [lookupA_setStatus_self NodeStatus.Visited hlk] at h
      simp at h
    · rw [lookupA_setStatus_ne _ hf] at h
      have := hInv.visitingPath f n h
      simp only [List.map_cons, List.mem_cons] at this
      rcases this with h1 | h1
      · exact absurd (h1.trans hfile.symm) hf
      · exact h1
  · exact hpn.2
  · have hc := hInv.chainE
    rw [show ((⟨tree, cycles, current :: restStack, nd0 :: ptail⟩ : BuildState).path)
        = nd0 :: ptail from rfl, List.reverse_cons] at hc
    exact (List.chain'_append.mp hc).1
  · intro f hf
    rw [show (⟨setStatus tree current.file NodeStatus.Visited, cycles, restStack, ptail⟩ :
        BuildState).tree = setStatus tree current.file NodeStatus.Visited from rfl,
      setStatus_keys] at hf
    exact hInv.keysReach f hf
  · intro fr hfr
    have := hInv.frames fr (List.mem_cons_of_mem _ hfr)
    simp only [setStatus_keys]
    exact this
  · intro p hp hv
    simp only [setStatus_keys]
    rcases mem_setStatus hp with h | ⟨h1, h2, st0, h3⟩
    · exact hInv.visitedClosed p h hv
    · have hlk3 : lookupA tree p.1 = some (p.2.1, st0) := lookupA_of_mem hInv.keysNodup h3
      rw [h1, hlk] at hlk3
      injection hlk3 with hlk3
      have heq : p.2.1 = nd0 := (Prod.mk.injEq _ _ _ _ ▸ hlk3.symm).1
      intro ip hip
      rw [heq] at hip
      have hframe := (hInv.frames current (List.mem_cons_self _ _)).2
      rw [← himports, hfull] at hframe
      exact hframe ip hip
  · simp only [setStatus_keys]
    exact hInv.entryMem

theorem inv_push (g : Scanner) (entry : String) (tree : DependencyTree)
    (cycles : List (List DependencyNode)) (current : StackItem)
    (restStack : List StackItem) (nd0 : DependencyNode) (ptail : List DependencyNode)
    (ap : String)
    (hInv : Inv g entry ⟨tree, cycles, current :: restStack, nd0 :: ptail⟩)
    (hfile : current.file = nd0.file)
    (hidx : ¬ current.importIndex ≥ nd0.imports.length)
    (hap : ap = (nd0.imports.getD current.importIndex ("", "")).2)
    (hlk2 : lookupA tree ap = none) :
    Inv g entry ⟨tree ++ [(ap, (⟨ap, effImports g ap⟩, NodeStatus.Visiting))], cycles,
      ⟨ap, 0⟩ :: ⟨current.file, current.importIndex + 1⟩ :: restStack,
      ⟨ap, effImports g ap⟩ :: nd0 :: ptail⟩ := by
  have hnd0 : lookupA tree nd0.file = some (nd0, NodeStatus.Visiting) :=
    hInv.pathTree nd0 (List.mem_cons_self _ _)
  have hlk : lookupA tree current.file = some (nd0, NodeStatus.Visiting) := by
    rw [hfile]; exact hnd0
  have hlt : current.importIndex < nd0.imports.length := not_le.mp hidx
  have himports : nd0.imports = effImports g current.file :=
    ((hInv.nodesOK _ (lookupA_mem hlk)).2.1).trans (by rw [hfile])
  have hmemip : nd0.imports.getD current.importIndex ("", "") ∈ nd0.imports := by
    rw [List.getD_eq_getElem _ _ hlt]
    exact List.getElem_mem _
  have hEdge : Edge g current.file ap := by
    rw [Edge, ← himports]
    exact List.mem_map.mpr ⟨_, hmemip, hap.symm⟩
  have hapKeys : ap ∉ tree.map Prod.fst := (lookupA_eq_none_iff _ _).mp hlk2
  have hsp := hInv.stackPath
  simp only [List.map_cons] at hsp
  injection hsp with hfile2 htails
  constructor
  · simp only [List.map_append, List.map_cons, List.map_nil]
    rw [List.nodup_append]
    refine ⟨hInv.keysNodup, List.nodup_singleton _, ?_⟩
    intro a ha hb
    simp at hb
    exact hapKeys (hb ▸ ha)
  · intro p hp
    rcases List.mem_append.mp hp with h | h
    · exact hInv.nodesOK p h
    · simp at h
      subst h
      simp
  · simp only [List.map_cons]
    rw [hfile2, htails]
  · intro nd hnd
    simp only at hnd ⊢
    rcases List.mem_cons.mp hnd with h | h
    · subst h
      rw [lookupA_append_of_none _ hlk2]
      simp [lookupA]
    · have := hInv.pathTree nd h
      exact lookupA_append_of_some _ this
  · intro f n h
    simp only at h ⊢
    cases hor : lookupA tree f with
    | some v =>
      rw [lookupA_append_of_some _ hor] at h
      rw [h] at hor
      have := hInv.visitingPath f n hor
      simp only [List.map_cons, List.mem_cons] at this ⊢
      exact Or.inr this
    | none =>
      rw [lookupA_append_of_none _ hor] at h
      by_cases haf : ap = f
      · subst haf
        simp [List.map_cons]
      · simp [lookupA, haf] at h
  · refine List.nodup_cons.mpr ⟨?_, hInv.pathNodup⟩
    intro hcon
    obtain ⟨nd, hnd, hndf⟩ := List.mem_map.mp hcon
    have hndf2 : nd.file = ap := hndf
    apply hapKeys
    rw [← hndf2]
    exact mem_keys_of_lookupA (hInv.pathTree nd hnd)
  · have hc : List.Chain' (fun a b => Edge g a.file b.file)
        ((nd0 :: ptail).reverse ++ [⟨ap, effImports g ap⟩]) := by
      apply List.chain'_append.mpr
      refine ⟨hInv.chainE, List.chain'_singleton _, ?_⟩
      intro x hx y hy
      rw [List.getLast?_reverse] at hx
      simp at hx hy
      rw [← hx, ← hy, ← hfile]
      exact hEdge
    simpa [List.reverse_cons] using hc
  · intro f hf
    simp only [List.map_append, List.map_cons, List.map_nil] at hf
    rcases List.mem_append.mp hf with h | h
    · exact hInv.keysReach f h
    · simp at h
      subst h
      have hreach : Reach g entry current.file :=
        hInv.keysReach _ (mem_keys_of_lookupA hlk)
      exact Relation.ReflTransGen.tail hreach hEdge
  · intro fr hfr
    simp only [List.map_append, List.map_cons, List.map_nil]
    rcases List.mem_cons.mp hfr with h | h
    · subst h
      simp
    · rcases List.mem_cons.mp h with h2 | h2
      · subst h2
        simp only []
        constructor
        · rw [← himports] at *
          omega
        · intro ip hip
          rw [← himports] at hip
          rw [List.take_succ] at hip
          rcases List.mem_append.mp hip with h3 | h3
          · have := (hInv.frames current (List.mem_cons_self _ _)).2
            rw [← himports] at this
            exact List.mem_append_left _ (this ip h3)
          · rw [List.getElem?_eq_getElem hlt] at h3
            simp at h3
            have hip2 : ip.2 = ap := by
              rw [h3, hap, List.getD_eq_getElem _ _ hlt]
            apply List.mem_append_right
            simp [hip2]
      · have := hInv.frames fr (List.mem_cons_of_mem _ h2)
        exact ⟨this.1, fun ip hip => List.mem_append_left _ (this.2 ip hip)⟩
  · intro p hp hv
    simp only [List.map_append, List.map_cons, List.map_nil]
    rcases List.mem_append.mp hp with h | h
    · intro ip hip
      exact List.mem_append_left _ (hInv.visitedClosed p h hv ip hip)
    · simp at h
      subst h
      simp at hv
  · simp only [List.map_append, List.map_cons, List.map_nil]
    exact List.mem_append_left _ hInv.entryMem

theorem inv_bump (g : Scanner) (entry : String) (tree : DependencyTree)
    (cycles cycles2 : List (List DependencyNode)) (current : StackItem)
    (restStack : List StackItem) (nd0 : DependencyNode) (ptail : List DependencyNode)
    (ap : String) (tn : DependencyNode) (st2 : NodeStatus)
    (hInv : Inv g entry ⟨tree, cycles, current :: restStack, nd0 :: ptail⟩)
    (hfile : current.file = nd0.file)
    (hidx : ¬ current.importIndex ≥ nd0.imports.length)
    (hap : ap = (nd0.imports.getD current.importIndex ("", "")).2)
    (hlk2 : lookupA tree ap = some (tn, st2)) :
    Inv g entry ⟨tree, cycles2,
      ⟨current.file, current.importIndex + 1⟩ :: restStack, nd0 :: ptail⟩ := by
  have hnd0 : lookupA tree nd0.file = some (nd0, NodeStatus.Visiting) :=
    hInv.pathTree nd0 (List.mem_cons_self _ _)
  have hlk : lookupA tree current.file = some (nd0, NodeStatus.Visiting) := by
    rw [hfile]; exact hnd0
  have hlt : current.importIndex < nd0.imports.length := not_le.mp hidx
  have himports : nd0.imports = effImports g current.file :=
    ((hInv.nodesOK _ (lookupA_mem hlk)).2.1).trans (by rw [hfile])
  have hsp := hInv.stackPath
  simp only [List.map_cons] at hsp
  injection hsp with hfile2 htails
  constructor
  · exact hInv.keysNodup
  · exact hInv.nodesOK
  · simp only [List.map_cons]
    rw [hfile2, htails]
  · exact hInv.pathTree
  · exact hInv.visitingPath
  · exact hInv.pathNodup
  · exact hInv.chainE
  · exact hInv.keysReach
  · intro fr hfr
    rcases List.mem_cons.mp hfr with h | h
    · subst h
      simp only []
      constructor
      · rw [← himports] at *
        omega
      · intro ip hip
        rw [← himports, List.take_succ] at hip
        rcases List.mem_append.mp hip with h3 | h3
        · have := (hInv.frames current (List.mem_cons_self _ _)).2
          rw [← himports] at this
          exact this ip h3
        · rw [List.getElem?_eq_getElem hlt] at h3
          simp at h3
          have heq : ip = nd0.imports.getD current.importIndex ("", "") := by
            rw [List.getD_eq_getElem _ _ hlt]
            exact h3
          have : ip.2 = ap := by rw [heq, ← hap]
          rw [this]
          exact mem_keys_of_lookupA hlk2
    · exact hInv.frames fr (List.mem_cons_of_mem _ h)
  · exact hInv.visitedClosed
  · exact hInv.entryMem

theorem inv_step (g : Scanner) (entry : String) (s : BuildState)
    (hInv : Inv g entry s) : Inv g entry (step g s) := by
  obtain ⟨tree, cycles, stack, path⟩ := s
  cases stack with
  | nil => exact hInv
  | cons current restStack =>
    cases path with
    | nil =>
      have := hInv.stackPath
      simp at this
    | cons nd0 ptail =>
      have hsp := hInv.stackPath
      simp only [List.map_cons] at hsp
      injection hsp with hfile htails
      have hnd0 : lookupA tree nd0.file = some (nd0, NodeStatus.Visiting) :=
        hInv.pathTree nd0 (List.mem_cons_self _ _)
      have hlk : lookupA tree current.file = some (nd0, NodeStatus.Visiting) := by
        rw [hfile]; exact hnd0
      by_cases hidx : current.importIndex ≥ nd0.imports.length
      · rw [step_eq_pop g tree cycles current restStack (nd0 :: ptail) nd0 _ hlk hidx]
        exact inv_pop g entry tree cycles current restStack nd0 ptail hInv hfile hidx
      · cases hlk2 : lookupA tree ((nd0.imports.getD current.importIndex ("", "")).2) with
        | none =>
          rw [step_eq_push g tree cycles current restStack (nd0 :: ptail) nd0 _ _ hlk hidx rfl hlk2]
          rw [pushToStack_eq_new g tree cycles _ _ _ hlk2]
          exact inv_push g entry tree cycles current restStack nd0 ptail _ hInv hfile hidx rfl hlk2
        | some v =>
          obtain ⟨tn, st2⟩ := v
          have hstatus := (hInv.nodesOK _ (lookupA_mem hlk2)).2.2
          cases st2 with
          | Unvisited => exact absurd rfl hstatus
          | Visiting =>
            rw [step_eq_visiting g tree cycles current restStack (nd0 :: ptail) nd0 _ _ tn hlk hidx rfl hlk2]
            exact inv_bump g entry tree cycles _ current restStack nd0 ptail _ tn _ hInv hfile hidx rfl hlk2
          | Visited =>
            rw [step_eq_visited g tree cycles current restStack (nd0 :: ptail) nd0 _ _ tn hlk hidx rfl hlk2]
            exact inv_bump g entry tree cycles _ current restStack nd0 ptail _ tn _ hInv hfile hidx rfl hlk2

theorem dfsMeasure_step_lt (g : Scanner) (entry : String) (L : List String)
    (hNd : L.Nodup) (hE : entry ∈ L) (hC : ClosedList g L) (s : BuildState)
    (hInv : Inv g entry s) (hne : s.stack ≠ []) :
    dfsMeasure g L (step g s) < dfsMeasure g L s := by
  obtain ⟨tree, cycles, stack, path⟩ := s
  cases stack with
  | nil => exact absurd rfl hne
  | cons current restStack =>
    cases path with
    | nil =>
      have := hInv.stackPath
      simp at this
    | cons nd0 ptail =>
      have hsp := hInv.stackPath
      simp only [List.map_cons] at hsp
      injection hsp with hfile htails
      have hnd0 : lookupA tree nd0.file = some (nd0, NodeStatus.Visiting) :=
        hInv.pathTree nd0 (List.mem_cons_self _ _)
      have hlk : lookupA tree current.file = some (nd0, NodeStatus.Visiting) := by
        rw [hfile]; exact hnd0
      have himports : nd0.imports = effImports g current.file :=
        ((hInv.nodesOK _ (lookupA_mem hlk)).2.1).trans (by rw [hfile])
      by_cases hidx : current.importIndex ≥ nd0.imports.length
      · rw [step_eq_pop g tree cycles current restStack (nd0 :: ptail) nd0 _ hlk hidx]
        have hF : (L.filter fun f =>
            (lookupA (setStatus tree current.file NodeStatus.Visited) f).isNone)
            = (L.filter fun f => (lookupA tree f).isNone) := by
          apply List.filter_congr
          intro f hf
          by_cases hfc : f = current.file
          · subst hfc
            rw [lookupA_setStatus_self NodeStatus.Visited hlk, hlk]
            rfl
          · rw [lookupA_setStatus_ne _ hfc]
        simp only [dfsMeasure, List.map_cons, List.sum_cons, List.length_cons]
        rw [hF]
        linarith [Nat.zero_le (stackWork g current)]
      · have hlt : current.importIndex < nd0.imports.length := not_le.mp hidx
        have hlt2 : current.importIndex < (effImports g current.file).length := by
          rw [← himports]; exact hlt
        have hwork : stackWork g ⟨current.file, current.importIndex + 1⟩ + 2
            = stackWork g current := by
          simp only [stackWork]
          omega
        cases hlk2 : lookupA tree ((nd0.imports.getD current.importIndex ("", "")).2) with
        | none =>
          have hmemip : nd0.imports.getD current.importIndex ("", "") ∈ nd0.imports := by
            rw [List.getD_eq_getElem _ _ hlt]
            exact List.getElem_mem _
          have hcfL : current.file ∈ L :=
            reach_mem_of_closed hC hE (hInv.keysReach _ (mem_keys_of_lookupA hlk))
          have hapL : (nd0.imports.getD current.importIndex ("", "")).2 ∈ L := by
            apply hC current.file hcfL
            rw [← himports]
            exact hmemip
          rw [step_eq_push g tree cycles current restStack (nd0 :: ptail) nd0 _ _ hlk hidx rfl hlk2]
          rw [pushToStack_eq_new g tree cycles _ _ _ hlk2]
          have hFsucc : ((L.filter fun f =>
              (lookupA (tree ++ [((nd0.imports.getD current.importIndex ("", "")).2,
                (⟨(nd0.imports.getD current.importIndex ("", "")).2,
                  effImports g ((nd0.imports.getD current.importIndex ("", "")).2)⟩,
                  NodeStatus.Visiting))]) f).isNone).length) + 1
              = ((L.filter fun f => (lookupA tree f).isNone).length) := by
            apply filter_length_succ _ _ _ _ _ L hNd hapL
            · intro f
              by_cases hfa : f = (nd0.imports.getD current.importIndex ("", "")).2
              · subst hfa
                rw [lookupA_append_of_none _ hlk2]
                simp [lookupA]
              · cases hly : lookupA tree f with
                | some v =>
                  rw [lookupA_append_of_some _ hly]
                  simp
                | none =>
                  have hfa2 : ¬ (nd0.imports.getD current.importIndex ("", "")).2 = f :=
                    fun h => hfa h.symm
                  rw [lookupA_append_of_none _ hly, lookupA, if_neg hfa2, lookupA,
                    decide_eq_false hfa]
                  rfl
            · rw [hlk2]
              rfl
          simp only [dfsMeasure, List.map_cons, List.sum_cons, List.length_cons]
          rw [← hFsucc, Nat.mul_succ]
          have hwap : stackWork g ⟨(nd0.imports.getD current.importIndex ("", "")).2, 0⟩
              ≤ 2 * maxImp g L := by
            simp only [stackWork]
            have := le_maxImp g L _ hapL
            omega
          linarith [hwap, hwork]
        | some v =>
          obtain ⟨tn, st2⟩ := v
          have hstatus := (hInv.nodesOK _ (lookupA_mem hlk2)).2.2
          cases st2 with
          | Unvisited => exact absurd rfl hstatus
          | Visiting =>
            rw [step_eq_visiting g tree cycles current restStack (nd0 :: ptail) nd0 _ _ tn hlk hidx rfl hlk2]
            simp only [dfsMeasure, List.map_cons, List.sum_cons, List.length_cons]
            linarith [hwork]
          | Visited =>
            rw [step_eq_visited g tree cycles current restStack (nd0 :: ptail) nd0 _ _ tn hlk hidx rfl hlk2]
            simp only [dfsMeasure, List.map_cons, List.sum_cons, List.length_cons]
            linarith [hwork]

theorem step_cycles_acyclic (g : Scanner) (entry : String) (s : BuildState)
    (hInv : Inv g entry s) (hA : Acyclic g entry) : (step g s).cycles = s.cycles := by
  obtain ⟨tree, cycles, stack, path⟩ := s
  cases stack with
  | nil => rfl
  | cons current restStack =>
    cases path with
    | nil =>
      have := hInv.stackPath
      simp at this
    | cons nd0 ptail =>
      have hsp := hInv.stackPath
      simp only [List.map_cons] at hsp
      injection hsp with hfile htails
      have hnd0 : lookupA tree nd0.file = some (nd0, NodeStatus.Visiting) :=
        hInv.pathTree nd0 (List.mem_cons_self _ _)
      have hlk : lookupA tree current.file = some (nd0, NodeStatus.Visiting) := by
        rw [hfile]; exact hnd0
      have himports : nd0.imports = effImports g current.file :=
        ((hInv.nodesOK _ (lookupA_mem hlk)).2.1).trans (by rw [hfile])
      by_cases hidx : current.importIndex ≥ nd0.imports.length
      · rw [step_eq_pop g tree cycles current restStack (nd0 :: ptail) nd0 _ hlk hidx]
      · have hlt : current.importIndex < nd0.imports.length := not_le.mp hidx
        cases hlk2 : lookupA tree ((nd0.imports.getD current.importIndex ("", "")).2) with
        | none =>
          rw [step_eq_push g tree cycles current restStack (nd0 :: ptail) nd0 _ _ hlk hidx rfl hlk2]
          rw [pushToStack_eq_new g tree cycles _ _ _ hlk2]
        | some v =>
          obtain ⟨tn, st2⟩ := v
          have hstatus := (hInv.nodesOK _ (lookupA_mem hlk2)).2.2
          cases st2 with
          | Unvisited => exact absurd rfl hstatus
          | Visiting =>
            exfalso
            have hmemip : nd0.imports.getD current.importIndex ("", "") ∈ nd0.imports := by
              rw [List.getD_eq_getElem _ _ hlt]
              exact List.getElem_mem _
            have hEdge : Edge g current.file
                ((nd0.imports.getD current.importIndex ("", "")).2) := by
              rw [Edge, ← himports]
              exact List.mem_map.mpr ⟨_, hmemip, rfl⟩
            have hmemPath := hInv.visitingPath _ tn hlk2
            obtain ⟨nd, hndmem, hndf⟩ := List.mem_map.mp hmemPath
            have hnel : (nd0 :: ptail).reverse ≠ [] := by simp
            have hreach := reach_getLast ((nd0 :: ptail).reverse) hInv.chainE nd
              (List.mem_reverse.mpr hndmem) hnel
            have hlast : ((nd0 :: ptail).reverse.getLast hnel) = nd0 := by
              simp
            rw [hlast, hndf] at hreach
            have htrans : Relation.TransGen (Edge g)
                ((nd0.imports.getD current.importIndex ("", "")).2)
                ((nd0.imports.getD current.importIndex ("", "")).2) := by
              apply Relation.TransGen.tail' hreach
              rw [← hfile]
              exact hEdge
            exact hA _ (hInv.keysReach _ (mem_keys_of_lookupA hlk2)) htrans
          | Visited =>
            rw [step_eq_visited g tree cycles current restStack (nd0 :: ptail) nd0 _ _ tn hlk hidx rfl hlk2]

theorem run_spec (g : Scanner) (entry : String) (L : List String)
    (hNd : L.Nodup) (hE : entry ∈ L) (hC : ClosedList g L) :
    ∀ (n : Nat) (s : BuildState), Inv g entry s → dfsMeasure g L s < n →
      (run g n s).stack = [] ∧ Inv g entry (run g n s) ∧
        (Acyclic g entry → (run g n s).cycles = s.cycles)
  | 0, s, _, hm => by omega
  | n + 1, s, hInv, hm => by
    rw [run]
    by_cases hse : s.stack.isEmpty
    · rw [if_pos hse]
      exact ⟨List.isEmpty_iff.mp hse, hInv, fun _ => rfl⟩
    · rw [if_neg hse]
      have hne : s.stack ≠ [] := fun hh => hse (by simp [hh])
      have hInv2 := inv_step g entry s hInv
      have hlt := dfsMeasure_step_lt g entry L hNd hE hC s hInv hne
      have hrec := run_spec g entry L hNd hE hC n (step g s) hInv2 (by omega)
      refine ⟨hrec.1, hrec.2.1, fun hA => ?_⟩
      rw [hrec.2.2 hA, step_cycles_acyclic g entry s hInv hA]

theorem final_state_spec (g : Scanner) (entry : String) (s : BuildState)
    (hInv : Inv g entry s) (hstack : s.stack = []) :
    (s.tree.map Prod.fst).Nodup ∧ (∀ f, Reach g entry f ↔ f ∈ s.tree.map Prod.fst) := by
  have hpath : s.path.map DependencyNode.file = [] := by
    have := hInv.stackPath
    rw [hstack] at this
    exact this.symm
  constructor
  · exact hInv.keysNodup
  intro f
  constructor
  case mpr => exact hInv.keysReach f
  intro h
  induction h with
  | refl => exact hInv.entryMem
  | tail hab hbc ih =>
    obtain ⟨p, hpmem, hp1⟩ := List.mem_map.mp ih
    obtain ⟨b, n, st⟩ := p
    cases hp1
    have hok := hInv.nodesOK _ hpmem
    cases st with
    | Unvisited => exact absurd rfl hok.2.2
    | Visiting =>
      have hlkb : lookupA s.tree b = some (n, NodeStatus.Visiting) :=
        lookupA_of_mem hInv.keysNodup hpmem
      have := hInv.visitingPath b n hlkb
      rw [hpath] at this
      simp at this
    | Visited =>
      obtain ⟨ip, hip, hip2⟩ := List.mem_map.mp hbc
      have himp : ip ∈ n.imports := by
        rw [hok.2.1]
        exact hip
      rw [← hip2]
      exact hInv.visitedClosed _ hpmem rfl ip himp

theorem dfsMeasure_init_lt_fuelBound (g : Scanner) (entry : String) (L : List String)
    (hE : entry ∈ L) : dfsMeasure g L (initState g entry) < fuelBound g L := by
  rw [initState_eq]
  simp only [dfsMeasure, fuelBound, List.map_cons, List.map_nil, List.sum_cons,
    List.sum_nil, List.length_cons, List.length_nil, stackWork, Nat.sub_zero]
  have h1 : ((L.filter fun f =>
      (lookupA [(entry, ((⟨entry, effImports g entry⟩ : DependencyNode),
        NodeStatus.Visiting))] f).isNone).length)
      ≤ L.length := List.length_filter_le _ _
  have h2 : (effImports g entry).length ≤ maxImp g L := le_maxImp g L entry hE
  have h3 : (2 * maxImp g L + 2) * ((L.filter fun f =>
      (lookupA [(entry, ((⟨entry, effImports g entry⟩ : DependencyNode),
        NodeStatus.Visiting))] f).isNone).length)
      ≤ (2 * maxImp g L + 2) * L.length := Nat.mul_le_mul_left _ h1
  have h5 : (2 * maxImp g L + 2) * (L.length + 1)
      = (2 * maxImp g L + 2) * L.length + (2 * maxImp g L + 2) := Nat.mul_succ _ _
  rw [h5]
  linarith [h2, h3]

theorem build_acyclic_correct (g : Scanner) (entry : String) (L : List String)
    (fuel : Nat) (hNd : L.Nodup) (hE : entry ∈ L) (hC : ClosedList g L)
    (hfuel : fuelBound g L ≤ fuel) (hA : Acyclic g entry) :
    (buildDependencyTreeAndDetectCycles g fuel entry).cycles = [] ∧
      (buildDependencyTreeAndDetectCycles g fuel entry).stack = [] ∧
      ((buildDependencyTreeAndDetectCycles g fuel entry).tree.map Prod.fst).Nodup ∧
      ∀ f, Reach g entry f ↔
        f ∈ (buildDependencyTreeAndDetectCycles g fuel entry).tree.map Prod.fst := by
  have hm : dfsMeasure g L (initState g entry) < fuel :=
    lt_of_lt_of_le (dfsMeasure_init_lt_fuelBound g entry L hE) hfuel
  have h := run_spec g entry L hNd hE hC fuel (initState g entry) (inv_init g entry) hm
  have hfin := final_state_spec g entry _ h.2.1 h.1
  refine ⟨?_, h.1, hfin.1, hfin.2⟩
  rw [buildDependencyTreeAndDetectCycles, h.2.2 hA, initState_eq]

theorem step_eq_lknone (g : Scanner) (tree : DependencyTree)
    (cycles : List (List DependencyNode)) (current : StackItem)
    (restStack : List StackItem) (path : List DependencyNode)
    (hlk : lookupA tree current.file = none) :
    step g ⟨tree, cycles, current :: restStack, path⟩
      = ⟨tree, cycles, current :: restStack, path⟩ := by
  unfold step
  simp only []
  rw [hlk]

theorem step_eq_unvisited (g : Scanner) (tree : DependencyTree)
    (cycles : List (List DependencyNode)) (current : StackItem)
    (restStack : List StackItem) (path : List DependencyNode)
    (node : DependencyNode) (st : NodeStatus) (ap : String) (tn : DependencyNode)
    (hlk : lookupA tree current.file = some (node, st))
    (hidx : ¬ current.importIndex ≥ node.imports.length)
    (hap : ap = (node.imports.getD current.importIndex ("", "")).2)
    (hlk2 : lookupA tree ap = some (tn, NodeStatus.Unvisited)) :
    step g ⟨tree, cycles, current :: restStack, path⟩ =
      pushToStack g
        ⟨tree, cycles, ⟨current.file, current.importIndex + 1⟩ :: restStack, path⟩ ap := by
  unfold step
  simp only []
  rw [hlk]
  simp only []
  rw [if_neg hidx, ← hap, hlk2]
  simp

theorem pushToStack_congr (g1 g2 : Scanner) (h : ∀ f, g1 f = g2 f)
    (s : BuildState) (file : String) : pushToStack g1 s file = pushToStack g2 s file := by
  have he : effImports g1 file = effImports g2 file := by
    rw [effImports, effImports, h file]
  simp [pushToStack, he]

theorem step_congr (g1 g2 : Scanner) (h : ∀ f, g1 f = g2 f) (s : BuildState) :
    step g1 s = step g2 s := by
  obtain ⟨tree, cycles, stack, path⟩ := s
  cases stack with
  | nil => rfl
  | cons current restStack =>
    cases hlk : lookupA tree current.file with
    | none =>
      rw [step_eq_lknone g1 tree cycles current restStack path hlk,
        step_eq_lknone g2 tree cycles current restStack path hlk]
    | some v =>
      obtain ⟨node, st⟩ := v
      by_cases hidx : current.importIndex ≥ node.imports.length
      · rw [step_eq_pop g1 tree cycles current restStack path node st hlk hidx,
          step_eq_pop g2 tree cycles current restStack path node st hlk hidx]
      · cases hlk2 : lookupA tree ((node.imports.getD current.importIndex ("", "")).2) with
        | none =>
          rw [step_eq_push g1 tree cycles current restStack path node st _ hlk hidx rfl hlk2,
            step_eq_push g2 tree cycles current restStack path node st _ hlk hidx rfl hlk2]
          exact pushToStack_congr g1 g2 h _ _
        | some w =>
          obtain ⟨tn, st2⟩ := w
          cases st2 with
          | Unvisited =>
            rw [step_eq_unvisited g1 tree cycles current restStack path node st _ tn hlk hidx rfl hlk2,
              step_eq_unvisited g2 tree cycles current restStack path node st _ tn hlk hidx rfl hlk2]
            exact pushToStack_congr g1 g2 h _ _
          | Visiting =>
            rw [step_eq_visiting g1 tree cycles current restStack path node st _ tn hlk hidx rfl hlk2,
              step_eq_visiting g2 tree cycles current restStack path node st _ tn hlk hidx rfl hlk2]
          | Visited =>
            rw [step_eq_visited g1 tree cycles current restStack path node st _ tn hlk hidx rfl hlk2,
              step_eq_visited g2 tree cycles current restStack path node st _ tn hlk hidx rfl hlk2]

theorem run_congr (g1 g2 : Scanner) (h : ∀ f, g1 f = g2 f) :
    ∀ (n : Nat) (s : BuildState), run g1 n s = run g2 n s
  | 0, s => rfl
  | n + 1, s => by
    rw [run, run]
    by_cases hse : s.stack.isEmpty
    · rw [if_pos hse, if_pos hse]
    · rw [if_neg hse, if_neg hse, step_congr g1 g2 h s]
      exact run_congr g1 g2 h n (step g2 s)

theorem build_congr (g1 g2 : Scanner) (h : ∀ f, g1 f = g2 f) (fuel : Nat)
    (entry : String) :
    buildDependencyTreeAndDetectCycles g1 fuel entry
      = buildDependencyTreeAndDetectCycles g2 fuel entry := by
  rw [buildDependencyTreeAndDetectCycles, buildDependencyTreeAndDetectCycles]
  rw [show initState g1 entry = initState g2 entry from pushToStack_congr g1 g2 h _ _]
  exact run_congr g1 g2 h fuel _

/-! ## Helpers shared by the claim theorems -/

theorem run_stack_nil (g : Scanner) : ∀ (n : Nat) (s : BuildState),
    s.stack = [] → run g n s = s
  | 0, _, _ => rfl
  | n + 1, s, h => by
    rw [run, if_pos (by simp [h])]

theorem acyclic_of_no_edges (g : Scanner) (entry : String)
    (hno : ∀ a b, ¬ Edge g a b) : Acyclic g entry := by
  intro f _ h
  cases h with
  | single h1 => exact hno _ _ h1
  | tail _ h1 => exact hno _ _ h1

theorem pushToStack_cycles (g : Scanner) (s : BuildState) (file : String) :
    (pushToStack g s file).cycles = s.cycles := rfl

/-- The diamond graph A→B, A→C, B→D, C→D with no back-edge. -/
def diamondG (A B C D : String) : Scanner := fun f =>
  Except.ok (if f = A then [("b", B), ("c", C)]
    else if f = B then [("d", D)]
    else if f = C then [("d", D)]
    else [])

/-- Topological rank witnessing that the diamond has no cycle. -/
def diamondRank (A B C : String) : String → Nat := fun f =>
  if f = A then 0 else if f = B then 1 else if f = C then 1 else 2

theorem findIdx?_go_append {α : Type} (p : α → Bool) (x : α) :
    ∀ (pre suf : List α) (i : Nat), (∀ y ∈ pre, p y = false) → p x = true →
      List.findIdx? p (pre ++ x :: suf) i = some (pre.length + i)
  | [], suf, i, _, hx => by
    simp [List.findIdx?, hx]
  | y :: pre, suf, i, hpre, hx => by
    have hy : p y = false := hpre y (List.mem_cons_self _ _)
    simp only [List.cons_append, List.findIdx?, hy, Bool.false_eq_true, if_false,
      List.length_cons, List.append_eq]
    rw [findIdx?_go_append p x pre suf (i + 1)
      (fun z hz => hpre z (List.mem_cons_of_mem _ hz)) hx]
    congr 1
    omega

theorem findIdx?_append_first {α : Type} (p : α → Bool) (x : α)
    (pre suf : List α) (hpre : ∀ y ∈ pre, p y = false) (hx : p x = true) :
    (pre ++ x :: suf).findIdx? p = some pre.length := by
  have := findIdx?_go_append p x pre suf 0 hpre hx
  simpa using this

/-! ## Claim theorems for the dependency graph builder -/

/-- C1: For every dependency graph reachable from the entry file that
contains no cycle (the reachable files lie in a finite, edge-closed,
duplicate-free universe L and the run is given enough fuel),
buildDependencyTreeAndDetectCycles returns an empty cycles list, and every
file reachable from the entry appears exactly once as a node in the
returned tree (one node per distinct absolute file identity: the key list
is duplicate-free and the keys are exactly the reachable files). -/
theorem c1_acyclic_no_cycles_unique_nodes (g : Scanner) (entry : String)
    (L : List String) (fuel : Nat) (hNd : L.Nodup) (hE : entry ∈ L)
    (hC : ClosedList g L) (hfuel : fuelBound g L ≤ fuel) (hA : Acyclic g entry) :
    (buildDependencyTreeAndDetectCycles g fuel entry).cycles = [] ∧
      ((buildDependencyTreeAndDetectCycles g fuel entry).tree.map Prod.fst).Nodup ∧
      ∀ f, Reach g entry f ↔
        f ∈ (buildDependencyTreeAndDetectCycles g fuel entry).tree.map Prod.fst := by
  have h := build_acyclic_correct g entry L fuel hNd hE hC hfuel hA
  exact ⟨h.1, h.2.2.1, h.2.2.2⟩

theorem c1_witness :
    (buildDependencyTreeAndDetectCycles (fun _ => Except.ok []) 10 "/e.ts").cycles = [] ∧
      ((buildDependencyTreeAndDetectCycles (fun _ => Except.ok []) 10 "/e.ts").tree.map
        Prod.fst).Nodup ∧
      ∀ f, Reach (fun _ => Except.ok []) "/e.ts" f ↔
        f ∈ (buildDependencyTreeAndDetectCycles (fun _ => Except.ok []) 10 "/e.ts").tree.map
          Prod.fst :=
  c1_acyclic_no_cycles_unique_nodes (fun _ => Except.ok []) "/e.ts" ["/e.ts"] 10
    (by decide) (by decide)
    (by intro f hf ip hip; simp [effImports] at hip)
    (by decide)
    (acyclic_of_no_edges _ _ (by intro a b hb; simp [Edge, effImports] at hb))

/-- C2: During traversal, a cycle is recorded only when the target of the
current edge is a node whose status is Visiting (never Visited); and for
every diamond-shaped graph A→B, A→C, B→D, C→D with no back-edge, no cycle
is ever reported. -/
theorem c2_cycle_only_on_visiting_and_diamond :
    (∀ (g : Scanner) (s : BuildState), (step g s).cycles ≠ s.cycles →
      ∃ current restStack node st tnode,
        s.stack = current :: restStack ∧
        lookupA s.tree current.file = some (node, st) ∧
        current.importIndex < node.imports.length ∧
        lookupA s.tree ((node.imports.getD current.importIndex ("", "")).2)
          = some (tnode, NodeStatus.Visiting)) ∧
    (∀ (A B C D : String) (fuel : Nat), A ≠ B → A ≠ C → A ≠ D → B ≠ C → B ≠ D →
      C ≠ D → 30 ≤ fuel →
      (buildDependencyTreeAndDetectCycles (diamondG A B C D) fuel A).cycles = []) := by
  constructor
  · intro g s h
    obtain ⟨tree, cycles, stack, path⟩ := s
    cases stack with
    | nil => exact absurd rfl h
    | cons current restStack =>
      cases hlk : lookupA tree current.file with
      | none =>
        rw [step_eq_lknone g tree cycles current restStack path hlk] at h
        exact absurd rfl h
      | some v =>
        obtain ⟨node, st⟩ := v
        by_cases hidx : current.importIndex ≥ node.imports.length
        · rw [step_eq_pop g tree cycles current restStack path node st hlk hidx] at h
          exact absurd rfl h
        · cases hlk2 : lookupA tree ((node.imports.getD current.importIndex ("", "")).2) with
          | none =>
            rw [step_eq_push g tree cycles current restStack path node st _ hlk hidx rfl hlk2,
              pushToStack_cycles] at h
            exact absurd rfl h
          | some w =>
            obtain ⟨tn, st2⟩ := w
            cases st2 with
            | Unvisited =>
              rw [step_eq_unvisited g tree cycles current restStack path node st _ tn
                hlk hidx rfl hlk2, pushToStack_cycles] at h
              exact absurd rfl h
            | Visiting =>
              exact ⟨current, restStack, node, st, tn, rfl, hlk, not_le.mp hidx, hlk2⟩
            | Visited =>
              rw [step_eq_visited g tree cycles current restStack path node st _ tn
                hlk hidx rfl hlk2] at h
              exact absurd rfl h
  · intro A B C D fuel hAB hAC hAD hBC hBD hCD hfuel
    have heffA : effImports (diamondG A B C D) A = [("b", B), ("c", C)] := by
      simp [diamondG, effImports]
    have heffB : effImports (diamondG A B C D) B = [("d", D)] := by
      simp [diamondG, effImports, Ne.symm hAB]
    have heffC : effImports (diamondG A B C D) C = [("d", D)] := by
      simp [diamondG, effImports, Ne.symm hAC, Ne.symm hBC]
    have heffD : effImports (diamondG A B C D) D = [] := by
      simp [diamondG, effImports, Ne.symm hAD, Ne.symm hBD, Ne.symm hCD]
    have hrank : ∀ x y, Edge (diamondG A B C D) x y →
        diamondRank A B C x < diamondRank A B C y := by
      intro x y he
      rw [Edge] at he
      by_cases hxA : x = A
      · subst hxA
        rw [heffA] at he
        simp [diamondRank] at he ⊢
        rcases he with rfl | rfl
        · simp [Ne.symm hAB]
        · simp [Ne.symm hAC]
      · by_cases hxB : x = B
        · subst hxB
          rw [heffB] at he
          simp at he
          subst he
          simp [diamondRank, hxA, Ne.symm hAD, Ne.symm hBD, Ne.symm hCD]
        · by_cases hxC : x = C
          · subst hxC
            rw [heffC] at he
            simp at he
            subst he
            simp [diamondRank, hxA, hxB, Ne.symm hAD, Ne.symm hBD, Ne.symm hCD]
          · have : effImports (diamondG A B C D) x = [] := by
              simp [diamondG, effImports, hxA, hxB, hxC]
            rw [this] at he
            simp at he
    have hA : Acyclic (diamondG A B C D) A := by
      intro f _ htg
      exact absurd (transGen_rank_lt (diamondRank A B C) hrank htg) (lt_irrefl _)
    have hmax : maxImp (diamondG A B C D) [A, B, C, D] = 2 := by
      simp [maxImp, heffA, heffB, heffC, heffD]
    have hNd : ([A, B, C, D] : List String).Nodup := by
      simp [List.nodup_cons]
      exact ⟨⟨hAB, hAC, hAD⟩, ⟨hBC, hBD⟩, hCD⟩
    have hC : ClosedList (diamondG A B C D) [A, B, C, D] := by
      intro f hf ip hip
      simp at hf
      rcases hf with rfl | rfl | rfl | rfl
      · rw [heffA] at hip
        rcases List.mem_cons.mp hip with rfl | hip2
        · simp
        · simp at hip2
          subst hip2
          simp
      · rw [heffB] at hip
        simp at hip
        subst hip
        simp
      · rw [heffC] at hip
        simp at hip
        subst hip
        simp
      · rw [heffD] at hip
        simp at hip
    have hfuel2 : fuelBound (diamondG A B C D) [A, B, C, D] ≤ fuel := by
      rw [fuelBound, hmax]
      simpa using hfuel
    exact (build_acyclic_correct (diamondG A B C D) A [A, B, C, D] fuel hNd
      (by simp) hC hfuel2 hA).1

theorem c2_witness :
    (buildDependencyTreeAndDetectCycles (diamondG "a" "b" "c" "d") 30 "a").cycles = [] :=
  c2_cycle_only_on_visiting_and_diamond.2 "a" "b" "c" "d" 30 (by decide) (by decide)
    (by decide) (by decide) (by decide) (by decide) (by decide)

/-- C3: Whenever traversal encounters an edge whose target node has status
Visiting, the recorded cycle is the suffix of the current traversal path
starting at the first occurrence of the target file (the path decomposes as
pre ++ pnode :: suf where no element of pre carries the target file), with
the target node appended once more at the end to close the loop. -/
theorem c3_cycle_is_visiting_suffix (g : Scanner) (tree : DependencyTree)
    (cycles : List (List DependencyNode)) (current : StackItem)
    (restStack : List StackItem) (path : List DependencyNode)
    (node : DependencyNode) (st : NodeStatus) (ap : String) (tn : DependencyNode)
    (pre suf : List DependencyNode) (pnode : DependencyNode)
    (hlk : lookupA tree current.file = some (node, st))
    (hidx : current.importIndex < node.imports.length)
    (hap : ap = (node.imports.getD current.importIndex ("", "")).2)
    (hlk2 : lookupA tree ap = some (tn, NodeStatus.Visiting))
    (hdecomp : path.reverse = pre ++ pnode :: suf)
    (hfirst : ∀ x ∈ pre, x.file ≠ ap)
    (hpnode : pnode.file = ap) :
    (step g ⟨tree, cycles, current :: restStack, path⟩).cycles
      = cycles ++ [(pnode :: suf) ++ [tn]] := by
  rw [step_eq_visiting g tree cycles current restStack path node st ap tn hlk
    (not_le.mpr hidx) hap hlk2]
  simp only []
  rw [hdecomp]
  have hfind : (pre ++ pnode :: suf).findIdx? (fun n => n.file == ap) = some pre.length := by
    apply findIdx?_append_first
    · intro y hy
      exact beq_eq_false_iff_ne.mpr (hfirst y hy)
    · exact beq_iff_eq.mpr hpnode
  rw [jsFindIndex, hfind]
  have hnneg : ¬ ((pre.length : Int) < 0) := by omega
  rw [jsSlice, if_neg hnneg]
  simp [List.drop_left]

/-- The nodes of the c3 witness state. -/
def c3na : DependencyNode := ⟨"/wa.ts", [("./wb", "/wb.ts")]⟩

/-- Second node of the c3 witness state. -/
def c3nb : DependencyNode := ⟨"/wb.ts", [("./wa", "/wa.ts")]⟩

theorem c3_witness :
    (step (fun _ => Except.ok [])
        ⟨[("/wa.ts", (c3na, NodeStatus.Visiting)), ("/wb.ts", (c3nb, NodeStatus.Visiting))],
          [], [⟨"/wb.ts", 0⟩, ⟨"/wa.ts", 1⟩], [c3nb, c3na]⟩).cycles
      = [] ++ [(c3na :: [c3nb]) ++ [c3na]] :=
  c3_cycle_is_visiting_suffix (fun _ => Except.ok [])
    [("/wa.ts", (c3na, NodeStatus.Visiting)), ("/wb.ts", (c3nb, NodeStatus.Visiting))]
    [] ⟨"/wb.ts", 0⟩ [⟨"/wa.ts", 1⟩] [c3nb, c3na] c3nb NodeStatus.Visiting
    "/wa.ts" c3na [] [c3nb] c3na
    (by decide) (by decide) (by decide) (by decide) (by decide)
    (by intro x hx; simp at hx) (by decide)

/-- C6 counterexample: building from an entry file whose scan fails (the
file does not exist or is not readable) does not fail: it returns a tree
that contains the entry as a zero-edge node, with no cycles. -/
theorem c6_counterexample :
    (buildDependencyTreeAndDetectCycles (fun _ => Except.error ()) 10 "/missing.ts").tree
        = [("/missing.ts", (⟨"/missing.ts", []⟩, NodeStatus.Visited))] ∧
      (buildDependencyTreeAndDetectCycles (fun _ => Except.error ()) 10 "/missing.ts").cycles
        = [] ∧
      ¬ ((buildDependencyTreeAndDetectCycles (fun _ => Except.error ()) 10 "/missing.ts").tree
        = []) := by
  refine ⟨by decide, by decide, by decide⟩

/-- C6 amended: a failing scan of the entry file (nonexistent or unreadable
entry) is caught by pushToStack: the run continues and returns a tree whose
only node is the entry with an empty import list, and no cycles; it does
not abort.  (The only fatal-style condition in the program is the CLI
argument-count check, which prints usage and exits before building.) -/
theorem c6_scan_failure_nonfatal (g : Scanner) (entry : String) (fuel : Nat)
    (herr : g entry = Except.error ()) (hfuel : 2 ≤ fuel) :
    buildDependencyTreeAndDetectCycles g fuel entry
      = ⟨[(entry, (⟨entry, []⟩, NodeStatus.Visited))], [], [], []⟩ := by
  obtain ⟨m, rfl⟩ : ∃ m, fuel = m + 2 := ⟨fuel - 2, by omega⟩
  have heff : effImports g entry = [] := by rw [effImports, herr]
  rw [buildDependencyTreeAndDetectCycles, initState_eq, heff]
  rw [run, if_neg (by simp)]
  rw [step_eq_pop g _ _ ⟨entry, 0⟩ [] _ ⟨entry, []⟩ NodeStatus.Visiting
    (by simp [lookupA]) (by simp)]
  rw [run_stack_nil g (m + 1) _ rfl]
  simp [setStatus]

theorem c6_witness :
    buildDependencyTreeAndDetectCycles (fun _ => Except.error ()) 10 "/gone.ts"
      = ⟨[("/gone.ts", (⟨"/gone.ts", []⟩, NodeStatus.Visited))], [], [], []⟩ :=
  c6_scan_failure_nonfatal (fun _ => Except.error ()) "/gone.ts" 10 rfl (by decide)

/-- C7: Running buildDependencyTreeAndDetectCycles twice from the same
entry over an unchanged file set (two scanner-and-resolver pipelines giving
the same answers on every file) produces an identical node set (the whole
insertion-ordered tree) and an identical cycle list in identical order. -/
theorem c7_deterministic_rerun (g1 g2 : Scanner) (h : ∀ f, g1 f = g2 f)
    (fuel : Nat) (entry : String) :
    (buildDependencyTreeAndDetectCycles g1 fuel entry).tree
        = (buildDependencyTreeAndDetectCycles g2 fuel entry).tree ∧
      (buildDependencyTreeAndDetectCycles g1 fuel entry).cycles
        = (buildDependencyTreeAndDetectCycles g2 fuel entry).cycles := by
  rw [build_congr g1 g2 h fuel entry]
  exact ⟨rfl, rfl⟩

theorem c7_witness :
    (buildDependencyTreeAndDetectCycles (fun _ => Except.ok [("./b", "/b.ts")]) 9 "/a.ts").tree
        = (buildDependencyTreeAndDetectCycles
            (fun _ => Except.ok ([] ++ [("./b", "/b.ts")])) 9 "/a.ts").tree ∧
      (buildDependencyTreeAndDetectCycles (fun _ => Except.ok [("./b", "/b.ts")]) 9 "/a.ts").cycles
        = (buildDependencyTreeAndDetectCycles
            (fun _ => Except.ok ([] ++ [("./b", "/b.ts")])) 9 "/a.ts").cycles :=
  c7_deterministic_rerun _ _ (fun _ => rfl) 9 "/a.ts"

/-! ## Claim theorems for the resolver's path-mapping order and import.ts -/

theorem mem_insertByPrefixLen (x z : String) :
    ∀ (l : List String), z ∈ insertByPrefixLen x l ↔ z = x ∨ z ∈ l
  | [] => by simp [insertByPrefixLen]
  | y :: ys => by
    rw [insertByPrefixLen]
    by_cases h : getPrefixLength x ≤ getPrefixLength y
    · rw [if_pos h]
      simp only [List.mem_cons, mem_insertByPrefixLen x z ys]
      tauto
    · rw [if_neg h]
      simp only [List.mem_cons]

theorem pairwise_insertByPrefixLen (x : String) :
    ∀ (l : List String),
      List.Pairwise (fun p q => getPrefixLength q ≤ getPrefixLength p) l →
      List.Pairwise (fun p q => getPrefixLength q ≤ getPrefixLength p)
        (insertByPrefixLen x l)
  | [], _ => by simp [insertByPrefixLen]
  | y :: ys, h => by
    rw [insertByPrefixLen]
    rcases List.pairwise_cons.mp h with ⟨hy, hys⟩
    by_cases hc : getPrefixLength x ≤ getPrefixLength y
    · rw [if_pos hc]
      apply List.pairwise_cons.mpr
      refine ⟨?_, pairwise_insertByPrefixLen x ys hys⟩
      intro z hz
      rcases (mem_insertByPrefixLen x z ys).mp hz with rfl | hz2
      · exact hc
      · exact hy z hz2
    · rw [if_neg hc]
      apply List.pairwise_cons.mpr
      refine ⟨?_, h⟩
      intro z hz
      rcases List.mem_cons.mp hz with rfl | hz2
      · omega
      · have := hy z hz2
        omega

theorem pairwise_foldl_insert :
    ∀ (ks : List String) (acc : List String),
      List.Pairwise (fun p q => getPrefixLength q ≤ getPrefixLength p) acc →
      List.Pairwise (fun p q => getPrefixLength q ≤ getPrefixLength p)
        (ks.foldl (fun a k => insertByPrefixLen k a) acc)
  | [], _, h => h
  | k :: ks, acc, h => pairwise_foldl_insert ks _ (pairwise_insertByPrefixLen k acc h)

/-- C5: Within one config, alias patterns are tried in descending order of
the length of the literal prefix before the first wildcard (the pattern
list produced by resolvePathMappings is pairwise sorted by descending
getPrefixLength); in particular, with both patterns @x/* and @x/y/*
configured, the mapping list puts @x/y/* first and resolveWithPaths
resolves specifier @x/y/z through @x/y/* (to the ey target), not @x/*. -/
theorem c5_longest_prefix_first :
    (∀ (paths : List (String × List String)) (base : String),
      List.Pairwise (fun p q => getPrefixLength q ≤ getPrefixLength p)
        ((resolvePathMappings paths base).map PathMapping.pattern)) ∧
    ((resolvePathMappings [("@x/*", ["./ex/*"]), ("@x/y/*", ["./ey/*"])] "/r").map
          PathMapping.pattern = ["@x/y/*", "@x/*"] ∧
      resolveWithPaths (fun id _ => some id) "@x/y/z" "/imp/f.ts"
          (resolvePathMappings [("@x/*", ["./ex/*"]), ("@x/y/*", ["./ey/*"])] "/r")
        = (some "/r/ey/z", true)) := by
  constructor
  · intro paths base
    have hmap : (resolvePathMappings paths base).map PathMapping.pattern
        = sortByPrefixLength paths := by
      rw [resolvePathMappings, List.map_map]
      show List.map (fun a => a) (sortByPrefixLength paths) = sortByPrefixLength paths
      exact List.map_id' _
    rw [hmap, sortByPrefixLength]
    exact pairwise_foldl_insert _ [] (by simp)
  · exact ⟨by decide, by decide⟩

/-- C9: On a line matching IMPORT_TYPE_REGEX (a named type-only import or
export, one whose text matches "import type" or "export type" followed by
an opening brace), hasImport returns true exactly when the specifier occurs
as a dynamic import(...) capture on that line; every static import/export
capture on such a line is rejected, including a value import that merely
shares the line with the type-only one. -/
theorem c9_type_line_only_dynamic (line s : String) (h : typeTest line = true) :
    hasImport line s = true ↔ s ∈ dynamicCaptures line := by
  rw [hasImport, h]
  rw [Bool.or_eq_true]
  constructor
  · intro h2
    rcases h2 with hA | hB
    · exfalso
      rcases List.any_eq_true.mp hA with ⟨m, hm, hcond⟩
      simp at hcond
    · rcases List.any_eq_true.mp hB with ⟨m, hm, hcond⟩
      exact (beq_iff_eq.mp hcond) ▸ hm
  · intro hm
    right
    exact List.any_eq_true.mpr ⟨s, hm, beq_self_eq_true s⟩

/-- The c9 witness line: a type-only import and a value import of m2 share
the line; m2 is nevertheless rejected. -/
def c9line : String := "import type \x7bT\x7d from \x22m\x22; import v from \x22m2\x22"

theorem c9_witness :
    typeTest c9line = true ∧
      (hasImport c9line "m2" = true ↔ "m2" ∈ dynamicCaptures c9line) ∧
      hasImport c9line "m2" = false :=
  ⟨by decide, c9_type_line_only_dynamic c9line "m2" (by decide), by decide⟩

/-! ## Claim theorem for resolveAmbiguous -/

/-- The chain of directories the upward walk visits, starting at some
directory. -/
def chainFrom (d : String) : Nat → String
  | 0 => d
  | n + 1 => dirname (chainFrom d n)

/-- The chain visited by resolveAmbiguous for an importing file: it starts
at the file's own directory. -/
def dirChain (importer : String) : Nat → String := chainFrom (dirname importer)

theorem chainFrom_shift (d : String) :
    ∀ (n : Nat), chainFrom (dirname d) n = chainFrom d (n + 1)
  | 0 => rfl
  | n + 1 => by
    rw [chainFrom, chainFrom_shift d n]
    rfl

theorem resolveAmbiguousGo_stops (rbd : ResolversByDir) (id importer : String) :
    ∀ (k fuel : Nat) (d : String) (prev : Option String), k < fuel →
      (∀ i ≤ k, chainFrom d i ≠ "" ∧ (0 < i → chainFrom d i ≠ chainFrom d (i - 1))) →
      prev ≠ some d →
      (∀ i < k, ∀ rs, lookupA rbd (chainFrom d i) = some rs →
        tryResolvers id importer rs = TryOutcome.next) →
      (∃ rs, lookupA rbd (chainFrom d k) = some rs ∧
        tryResolvers id importer rs = TryOutcome.stop) →
      resolveAmbiguousGo rbd id importer fuel prev d = none
  | 0, fuel, d, prev, hf, hguard, hprev, _, hstop => by
    obtain ⟨m, rfl⟩ : ∃ m, fuel = m + 1 := ⟨fuel - 1, by omega⟩
    rw [resolveAmbiguousGo]
    rw [if_neg (by
      simp only [Bool.or_eq_true, decide_eq_true_eq, not_or]
      exact ⟨(hguard 0 (by omega)).1, hprev⟩)]
    obtain ⟨rs, hrs, htry⟩ := hstop
    rw [show chainFrom d 0 = d from rfl] at hrs
    simp only [hrs, htry]
  | k + 1, fuel, d, prev, hf, hguard, hprev, hbelow, hstop => by
    obtain ⟨m, rfl⟩ : ∃ m, fuel = m + 1 := ⟨fuel - 1, by omega⟩
    rw [resolveAmbiguousGo]
    rw [if_neg (by
      simp only [Bool.or_eq_true, decide_eq_true_eq, not_or]
      exact ⟨(hguard 0 (by omega)).1, hprev⟩)]
    have hnext : resolveAmbiguousGo rbd id importer m (some d) (dirname d) = none := by
      apply resolveAmbiguousGo_stops rbd id importer k m (dirname d) (some d) (by omega)
      · intro i hi
        constructor
        · rw [chainFrom_shift d i]
          exact (hguard (i + 1) (by omega)).1
        · intro hipos
          have heq : chainFrom (dirname d) (i - 1) = chainFrom d i := by
            rw [chainFrom_shift d (i - 1)]
            congr 1
            omega
          rw [chainFrom_shift d i, heq]
          have h2 := (hguard (i + 1) (by omega)).2 (by omega)
          simpa using h2
      · intro hcon
        injection hcon with hcon
        have h1 := (hguard 1 (by omega)).2 (by omega)
        rw [show chainFrom d 1 = dirname d from rfl,
          show chainFrom d (1 - 1) = d from rfl] at h1
        exact h1 hcon.symm
      · intro i hi rs hrs
        rw [chainFrom_shift d i] at hrs
        exact hbelow (i + 1) (by omega) rs hrs
      · obtain ⟨rs, hrs, htry⟩ := hstop
        rw [← chainFrom_shift d k] at hrs
        exact ⟨rs, hrs, htry⟩
    cases hlk : lookupA rbd d with
    | none => exact hnext
    | some rs =>
      have htn : tryResolvers id importer rs = TryOutcome.next :=
        hbelow 0 (by omega) rs (by rw [show chainFrom d 0 = d from rfl]; exact hlk)
      simp only [htn]
      exact hnext

/-- C4: For every registry, specifier and importing file, resolveAmbiguous
walks upward from the importing file's own directory; as soon as a resolver
at some directory of the chain declares itself matched without producing a
truthy resolved path (the directory's resolver list yields TryOutcome.stop,
every strictly lower chain directory having yielded no resolution and no
match), it returns no match without consulting any resolver registered at a
higher ancestor directory (the registry is arbitrary above that
directory). -/
theorem c4_matched_unresolved_stops (rbd : ResolversByDir) (id importer : String)
    (fuel k : Nat) (hfuel : k < fuel)
    (hguard : ∀ i ≤ k, dirChain importer i ≠ "" ∧
      (0 < i → dirChain importer i ≠ dirChain importer (i - 1)))
    (hbelow : ∀ i < k, ∀ rs, lookupA rbd (dirChain importer i) = some rs →
      tryResolvers id importer rs = TryOutcome.next)
    (hstop : ∃ rs, lookupA rbd (dirChain importer k) = some rs ∧
      tryResolvers id importer rs = TryOutcome.stop) :
    resolveAmbiguous rbd id importer fuel = none := by
  rw [resolveAmbiguous]
  exact resolveAmbiguousGo_stops rbd id importer k fuel (dirname importer) none hfuel
    hguard (by simp) hbelow hstop

/-- The c4 witness registry: the nearest directory declines, /a matches the
specifier scope but cannot resolve it, and the root would resolve it — yet
the walk stops at /a. -/
def c4rbd : ResolversByDir :=
  [("/a/b", [fun _ _ => ((none : Option String), false)]),
   ("/a", [fun _ _ => ((none : Option String), true)]),
   ("/", [fun _ _ => (some "/RESOLVED_AT_ROOT.ts", true)])]

theorem c4_witness :
    (∃ rs, lookupA c4rbd (dirChain "/a/b/f.ts" 1) = some rs ∧
      tryResolvers "m" "/a/b/f.ts" rs = TryOutcome.stop) ∧
    resolveAmbiguous c4rbd "m" "/a/b/f.ts" 10 = none := by
  refine ⟨⟨[fun _ _ => ((none : Option String), true)], rfl, rfl⟩, ?_⟩
  apply c4_matched_unresolved_stops c4rbd "m" "/a/b/f.ts" 10 1 (by omega)
  · intro i hi
    interval_cases i
    · exact ⟨by decide, by omega⟩
    · exact ⟨by decide, fun _ => by decide⟩
  · intro i hi rs hrs
    have hi0 : i = 0 := by omega
    subst hi0
    have : lookupA c4rbd (dirChain "/a/b/f.ts" 0)
        = some [fun _ _ => ((none : Option String), false)] := rfl
    rw [this] at hrs
    injection hrs with hrs
    rw [← hrs]
    rfl
  · exact ⟨[fun _ _ => ((none : Option String), true)], rfl, rfl⟩

/-! ## Claim theorem for the per-resolver resolution cache -/

/-- Fold a sequence of further calls through the stateful resolver,
keeping only the cache. -/
def runCalls (env : ResolverEnv) (c : Cache) (calls : List (String × String)) : Cache :=
  calls.foldl (fun cc x => (configResolverStep env cc x.1 x.2).2) c

theorem str_append_empty (s : String) : s ++ "" = s := by
  apply String.ext
  show s.data ++ [] = s.data
  exact List.append_nil _

theorem lookupA_cacheSet_self (k v : String) :
    ∀ (c : Cache), lookupA (cacheSet c k v) k = some v
  | [] => by simp [cacheSet, lookupA]
  | (k0, v0) :: t => by
    by_cases h : k0 = k
    · rw [cacheSet, if_pos h, lookupA, if_pos h]
    · rw [cacheSet, if_neg h, lookupA, if_neg h]
      exact lookupA_cacheSet_self k v t

theorem lookupA_cacheSet_ne (k k2 v : String) (h : ¬ k2 = k) :
    ∀ (c : Cache), lookupA (cacheSet c k v) k2 = lookupA c k2
  | [] => by
    rw [cacheSet, lookupA, lookupA, if_neg (fun h2 => h h2.symm)]
    rfl
  | (k0, v0) :: t => by
    by_cases h0 : k0 = k
    · rw [cacheSet, if_pos h0, lookupA, lookupA]
      rw [h0, if_neg (fun h2 => h h2.symm), if_neg (fun h2 => h h2.symm)]
    · rw [cacheSet, if_neg h0, lookupA, lookupA]
      by_cases h2 : k0 = k2
      · rw [if_pos h2, if_pos h2]
      · rw [if_neg h2, if_neg h2]
        exact lookupA_cacheSet_ne k k2 v h t

theorem tailParamsMatch_append (start : List Char) :
    ∀ (cs ds : List Char), (∀ ch ∈ cs, ch ∉ start) →
      tailParamsMatch start (cs ++ ds) = tailParamsMatch start ds
  | [], ds, _ => rfl
  | c :: cs, ds, h => by
    rw [List.cons_append, tailParamsMatch]
    have hc : start.contains c = false := by
      have := h c (List.mem_cons_self _ _)
      simpa using this
    rw [hc]
    simp only [Bool.false_and, Bool.false_eq_true, if_false]
    exact tailParamsMatch_append start cs ds (fun ch hch => h ch (List.mem_cons_of_mem _ hch))

theorem tailParamsMatch_cons_start (start : List Char) (c : Char) (t : List Char)
    (hc : c ∈ start) (ht : t ≠ []) (hall : ∀ ch ∈ t, isRegexNewline ch = false) :
    tailParamsMatch start (c :: t) = some (c :: t) := by
  rw [tailParamsMatch]
  have h1 : start.contains c = true := by simpa using hc
  have h2 : t.isEmpty = false := by
    cases t with
    | nil => exact absurd rfl ht
    | cons x xs => rfl
  have h3 : t.all (fun d => !isRegexNewline d) = true := by
    rw [List.all_eq_true]
    intro d hd
    simp [hall d hd]
  rw [if_pos (by rw [h1, h2, h3]; rfl)]

theorem importParams_no_query (s : String) (hs : '?' ∉ s.data) :
    importParams s = none := by
  rw [importParams]
  have h0 : ∀ ch ∈ s.data, ch ∉ ['?'] := by
    intro ch hch
    simp only [List.mem_singleton]
    intro h2
    rw [h2] at hch
    exact hs hch
  have := tailParamsMatch_append ['?'] s.data [] h0
  rw [List.append_nil] at this
  rw [this]
  rfl

theorem importParams_with_query (s t : String) (hs : '?' ∉ s.data)
    (ht : t.data ≠ []) (hall : ∀ ch ∈ t.data, isRegexNewline ch = false) :
    importParams (s ++ ("?" ++ t)) = some ("?" ++ t) := by
  rw [importParams]
  have hdata : (s ++ ("?" ++ t)).data = s.data ++ ('?' :: t.data) := by
    rw [String.data_append, String.data_append]
    rfl
  have h0 : ∀ ch ∈ s.data, ch ∉ ['?'] := by
    intro ch hch
    simp only [List.mem_singleton]
    intro h2
    rw [h2] at hch
    exact hs hch
  rw [hdata, tailParamsMatch_append ['?'] s.data _ h0,
    tailParamsMatch_cons_start ['?'] '?' t.data (by simp) ht hall]
  rw [Option.map]
  apply congrArg some
  apply String.ext
  rw [String.data_append]
  rfl

theorem strDropRight_append (s q : String) :
    strDropRight (s ++ q) q.data.length = s := by
  rw [strDropRight, String.data_append, List.length_append, Nat.add_sub_cancel,
    List.take_left]

theorem configResolverStep_cache_shape (env : ResolverEnv) (c : Cache)
    (idp imp : String) :
    (configResolverStep env c idp imp).2 = c ∨
      ∃ k x, (lookupA c k = none ∨ lookupA c k = some "") ∧
        (configResolverStep env c idp imp).2 = cacheSet c k x := by
  rw [configResolverStep]
  simp only []
  generalize (match importParams idp with
    | some ps => strDropRight idp ps.data.length
    | none => idp) = id2
  by_cases h1 : (!supportedExtTest (stripImporterParams (pathNormalize imp))) = true
  · rw [if_pos h1]
    exact Or.inl (by trivial)
  rw [if_neg h1]
  by_cases h2 : (!env.includer (pathRelative env.configDir
      (stripImporterParams (pathNormalize imp)))) = true
  · rw [if_pos h2]
    exact Or.inl (by trivial)
  rw [if_neg h2]
  cases hl : lookupA c id2 with
  | some p0 =>
    simp only []
    by_cases hp0 : p0 = ""
    · rw [if_pos hp0]
      simp only []
      split
      · exact Or.inr ⟨id2, _, Or.inr (by rw [hl, hp0]), rfl⟩
      · split
        · exact Or.inr ⟨id2, _, Or.inr (by rw [hl, hp0]), rfl⟩
        · exact Or.inl (by trivial)
    · rw [if_neg hp0]
      simp only []
      exact Or.inl (by trivial)
  | none =>
    simp only []
    split
    · exact Or.inr ⟨id2, _, Or.inl hl, rfl⟩
    · split
      · exact Or.inr ⟨id2, _, Or.inl hl, rfl⟩
      · exact Or.inl (by trivial)

theorem configResolverStep_cache_mono (env : ResolverEnv) (idp imp k v : String)
    (hv : v ≠ "") (c : Cache) (h : lookupA c k = some v) :
    lookupA (configResolverStep env c idp imp).2 k = some v := by
  rcases configResolverStep_cache_shape env c idp imp with hsh | ⟨k2, x, hcond, hsh⟩
  · rw [hsh]
    exact h
  · rw [hsh]
    have hne : ¬ k = k2 := by
      intro hkk
      rw [hkk] at h
      rcases hcond with h2 | h2
      · rw [h2] at h
        exact Option.noConfusion h
      · rw [h2] at h
        exact hv (Option.some.inj h).symm
    rw [lookupA_cacheSet_ne _ _ _ hne]
    exact h

theorem runCalls_cache_mono (env : ResolverEnv) (k v : String) (hv : v ≠ "") :
    ∀ (calls : List (String × String)) (c : Cache), lookupA c k = some v →
      lookupA (runCalls env c calls) k = some v
  | [], c, h => h
  | x :: xs, c, h => by
    rw [runCalls, List.foldl_cons]
    exact runCalls_cache_mono env k v hv xs _
      (configResolverStep_cache_mono env x.1 x.2 k v hv c h)

theorem createResolver_bunRes (ext : String → String → Option String)
    (tsconfigFile : String) (config : TSConfigM) (env : ResolverEnv)
    (h : createResolver ext tsconfigFile config = some env) :
    env.bunRes = fun a b => bunResolveM ext a b := by
  rw [createResolver] at h
  simp only [] at h
  split at h
  · exact Option.noConfusion h
  · split at h
    · exact Option.noConfusion h
    · split at h
      · exact Option.noConfusion h
      · injection h with h
        rw [← h]

theorem success_cache_miss (r1 r2 : Resolution) (c c' : Cache) (s p : String)
    (hr2 : ∀ x, r2.1 = some x → r2.2 = true) (hp : p ≠ "")
    (h1 : (if (r1.2 && truthy r1.1) = true
           then ((appendParams r1.1 none, true), cacheSet c s (r1.1.getD ""))
           else ((appendParams r2.1 none, true),
                 if (r2.2 && truthy r2.1) = true
                 then cacheSet c s (r2.1.getD "") else c))
          = ((some p, true), c')) :
    lookupA c' s = some p := by
  split at h1
  · simp only [Prod.mk.injEq] at h1
    obtain ⟨⟨h2, -⟩, h3⟩ := h1
    cases hx : r1.1 with
    | none =>
      rw [hx] at h2
      simp [appendParams] at h2
    | some rp =>
      rw [hx] at h2
      simp only [appendParams] at h2
      injection h2 with h2
      subst h2
      rw [← h3, hx]
      simp only [Option.getD_some]
      exact lookupA_cacheSet_self s rp c
  · simp only [Prod.mk.injEq] at h1
    obtain ⟨⟨h2, -⟩, h3⟩ := h1
    cases hx : r2.1 with
    | none =>
      rw [hx] at h2
      simp [appendParams] at h2
    | some rp =>
      rw [hx] at h2
      simp only [appendParams] at h2
      injection h2 with h2
      subst h2
      have hb : r2.2 = true := hr2 rp hx
      have hcond : (r2.2 && truthy r2.1) = true := by
        rw [hb, hx]
        simp [truthy, hp]
      rw [if_pos hcond] at h3
      rw [← h3, hx]
      simp only [Option.getD_some]
      exact lookupA_cacheSet_self s rp c

theorem configResolverStep_success_cache (ext : String → String → Option String)
    (env : ResolverEnv) (hBR : env.bunRes = fun a b => bunResolveM ext a b)
    (c c' : Cache) (s p i1 : String)
    (hsp : importParams s = none) (hp : p ≠ "")
    (h1 : configResolverStep env c s i1 = ((some p, true), c')) :
    lookupA c' s = some p := by
  have hr2f : ∀ x, (env.bunRes s (stripImporterParams (pathNormalize i1))).1 = some x →
      (env.bunRes s (stripImporterParams (pathNormalize i1))).2 = true := by
    intro x hx
    rw [hBR] at hx ⊢
    simp only [bunResolveM] at hx ⊢
    cases hex : ext s (if fileExtTest (stripImporterParams (pathNormalize i1)) = true
        then dirname (stripImporterParams (pathNormalize i1))
        else stripImporterParams (pathNormalize i1)) with
    | none =>
      rw [hex] at hx
      simp at hx
    | some r =>
      rfl
  rw [configResolverStep] at h1
  simp only [hsp] at h1
  by_cases hext : (!supportedExtTest (stripImporterParams (pathNormalize i1))) = true
  · rw [if_pos hext] at h1
    exact absurd h1 (by simp)
  rw [if_neg hext] at h1
  by_cases hinc : (!env.includer (pathRelative env.configDir
      (stripImporterParams (pathNormalize i1)))) = true
  · rw [if_pos hinc] at h1
    exact absurd h1 (by simp)
  rw [if_neg hinc] at h1
  cases hl : lookupA c s with
  | some p0 =>
    rw [hl] at h1
    simp only [] at h1
    by_cases hp0 : p0 = ""
    · rw [if_pos hp0] at h1
      simp only [] at h1
      exact success_cache_miss _ _ c c' s p hr2f hp h1
    · rw [if_neg hp0] at h1
      simp only [Prod.mk.injEq] at h1
      obtain ⟨⟨h2, -⟩, h3⟩ := h1
      simp only [appendParams] at h2
      rw [← h3, hl, h2]
  | none =>
    rw [hl] at h1
    simp only [] at h1
    exact success_cache_miss _ _ c c' s p hr2f hp h1

/-- C10: a config resolver's resolution cache is keyed by the specifier
alone, not by the importing file: once the resolver has successfully
resolved specifier s (importing file i1) to a nonempty path p, any later
call — after arbitrary interleaved calls — with the same specifier s (with
any query suffix q) from any importing file i2 passing the extension and
include/exclude applicability checks returns p with q re-appended, with the
cache unchanged, independent of i2. -/
theorem c10_cache_keyed_by_specifier (ext : String → String → Option String)
    (tsconfigFile : String) (config : TSConfigM) (env : ResolverEnv)
    (c c1 : Cache) (s p q i1 i2 : String) (calls : List (String × String))
    (hEnv : createResolver ext tsconfigFile config = some env)
    (hs : '?' ∉ s.data)
    (hq : q = "" ∨ ∃ t : String, t.data ≠ [] ∧
      (∀ ch ∈ t.data, isRegexNewline ch = false) ∧ q = "?" ++ t)
    (hp : p ≠ "")
    (h1 : configResolverStep env c s i1 = ((some p, true), c1))
    (hExt2 : supportedExtTest (stripImporterParams (pathNormalize i2)) = true)
    (hInc2 : env.includer (pathRelative env.configDir
      (stripImporterParams (pathNormalize i2))) = true) :
    configResolverStep env (runCalls env c1 calls) (s ++ q) i2
      = ((some (p ++ q), true), runCalls env c1 calls) := by
  have hBR := createResolver_bunRes ext tsconfigFile config env hEnv
  have hsp : importParams s = none := importParams_no_query s hs
  have hc1 : lookupA c1 s = some p :=
    configResolverStep_success_cache ext env hBR c c1 s p i1 hsp hp h1
  have hcC : lookupA (runCalls env c1 calls) s = some p :=
    runCalls_cache_mono env s p hp calls c1 hc1
  rcases hq with rfl | ⟨t, ht, hall, rfl⟩
  · rw [str_append_empty s, str_append_empty p]
    rw [configResolverStep]
    simp only [hsp]
    rw [if_neg (by rw [hExt2]; simp)]
    rw [if_neg (by rw [hInc2]; simp)]
    rw [hcC]
    simp only []
    rw [if_neg hp]
    simp only [appendParams]
  · have hpq : importParams (s ++ ("?" ++ t)) = some ("?" ++ t) :=
      importParams_with_query s t hs ht hall
    have hqne : ¬("?" ++ t) = "" := by
      intro hcon
      have hd := congrArg String.data hcon
      rw [String.data_append] at hd
      simp at hd
    rw [configResolverStep]
    simp only [hpq]
    rw [strDropRight_append s ("?" ++ t)]
    rw [if_neg (by rw [hExt2]; simp)]
    rw [if_neg (by rw [hInc2]; simp)]
    rw [hcC]
    simp only []
    rw [if_neg hp]
    simp only [appendParams]
    rw [if_pos (by simp [hp, hqne])]

/-- One concrete createResolver collaborator for the C10 witness: the
Bun.resolveSync stand-in knows a single module. -/
def c10ext : String → String → Option String := fun id _ =>
  if id = "/p/x" then some "/p/x.ts" else none

/-- A tsconfig with only a baseUrl, for the C10 witness. -/
def c10cfg : TSConfigM := { compilerOptions := some { baseUrl := some "/p" } }

/-- Fallback environment for Option.getD in the C10 witness. -/
def c10defaultEnv : ResolverEnv :=
  { configDir := ""
    resolveIdOrPath := fun _ _ => (none, false)
    includer := fun _ => true
    bunRes := fun _ _ => (none, false) }

/-- The resolver environment created from c10cfg. -/
def c10env : ResolverEnv :=
  (createResolver c10ext "/p/tsconfig.json" c10cfg).getD c10defaultEnv

theorem c10_witness :
    configResolverStep c10env [("x", "/p/x.ts")]
        ("x" ++ ("?" ++ "worker")) "/p/other/deep/n.tsx"
      = ((some ("/p/x.ts" ++ ("?" ++ "worker")), true), [("x", "/p/x.ts")]) := by
  have h := c10_cache_keyed_by_specifier c10ext "/p/tsconfig.json" c10cfg c10env
    [] [("x", "/p/x.ts")] "x" "/p/x.ts" ("?" ++ "worker") "/p/src/m.ts"
    "/p/other/deep/n.tsx" []
    rfl (by decide)
    (Or.inr ⟨"worker", by decide, by decide, rfl⟩)
    (by decide) (by decide) (by decide) (by decide)
  exact h

/-- The triangle graph A→B→C→A with arbitrary specifier strings. -/
def triangleG (A B C sB sC sA : String) : Scanner := fun f =>
  Except.ok (if f = A then [(sB, B)]
    else if f = B then [(sC, C)]
    else if f = C then [(sA, A)]
    else [])

theorem run_step_ne (g : Scanner) (n : Nat) (s : BuildState)
    (h : s.stack.isEmpty = false) : run g (n + 1) s = run g n (step g s) := by
  rw [run, h]
  simp

theorem triangle_cycles (A B C sB sC sA : String) (fuel : Nat)
    (hAB : ¬ A = B) (hAC : ¬ A = C) (hBC : ¬ B = C) (hfuel : 10 ≤ fuel) :
    (buildDependencyTreeAndDetectCycles (triangleG A B C sB sC sA) fuel A).cycles
      = [[⟨A, [(sB, B)]⟩, ⟨B, [(sC, C)]⟩, ⟨C, [(sA, A)]⟩, ⟨A, [(sB, B)]⟩]] := by
  have hBA : ¬ B = A := fun h => hAB h.symm
  have hCA : ¬ C = A := fun h => hAC h.symm
  have hCB : ¬ C = B := fun h => hBC h.symm
  have heffA : effImports (triangleG A B C sB sC sA) A = [(sB, B)] := by
    simp [triangleG, effImports]
  have heffB : effImports (triangleG A B C sB sC sA) B = [(sC, C)] := by
    simp [triangleG, effImports, hBA]
  have heffC : effImports (triangleG A B C sB sC sA) C = [(sA, A)] := by
    simp [triangleG, effImports, hCA, hCB]
  have h1 : step (triangleG A B C sB sC sA)
      ⟨[(A, (⟨A, [(sB, B)]⟩, .Visiting))], [], [⟨A, 0⟩], [⟨A, [(sB, B)]⟩]⟩
    = ⟨[(A, (⟨A, [(sB, B)]⟩, .Visiting)), (B, (⟨B, [(sC, C)]⟩, .Visiting))], [],
       [⟨B, 0⟩, ⟨A, 1⟩], [⟨B, [(sC, C)]⟩, ⟨A, [(sB, B)]⟩]⟩ := by
    simp [step, lookupA, pushToStack, setStatus, heffB, hAB, hBA]
  have h2 : step (triangleG A B C sB sC sA)
      ⟨[(A, (⟨A, [(sB, B)]⟩, .Visiting)), (B, (⟨B, [(sC, C)]⟩, .Visiting))], [],
       [⟨B, 0⟩, ⟨A, 1⟩], [⟨B, [(sC, C)]⟩, ⟨A, [(sB, B)]⟩]⟩
    = ⟨[(A, (⟨A, [(sB, B)]⟩, .Visiting)), (B, (⟨B, [(sC, C)]⟩, .Visiting)),
        (C, (⟨C, [(sA, A)]⟩, .Visiting))], [],
       [⟨C, 0⟩, ⟨B, 1⟩, ⟨A, 1⟩],
       [⟨C, [(sA, A)]⟩, ⟨B, [(sC, C)]⟩, ⟨A, [(sB, B)]⟩]⟩ := by
    simp [step, lookupA, pushToStack, setStatus, heffC, hAB, hBA, hAC, hCA, hBC, hCB]
  have h3 : step (triangleG A B C sB sC sA)
      ⟨[(A, (⟨A, [(sB, B)]⟩, .Visiting)), (B, (⟨B, [(sC, C)]⟩, .Visiting)),
        (C, (⟨C, [(sA, A)]⟩, .Visiting))], [],
       [⟨C, 0⟩, ⟨B, 1⟩, ⟨A, 1⟩],
       [⟨C, [(sA, A)]⟩, ⟨B, [(sC, C)]⟩, ⟨A, [(sB, B)]⟩]⟩
    = ⟨[(A, (⟨A, [(sB, B)]⟩, .Visiting)), (B, (⟨B, [(sC, C)]⟩, .Visiting)),
        (C, (⟨C, [(sA, A)]⟩, .Visiting))],
       [[⟨A, [(sB, B)]⟩, ⟨B, [(sC, C)]⟩, ⟨C, [(sA, A)]⟩, ⟨A, [(sB, B)]⟩]],
       [⟨C, 1⟩, ⟨B, 1⟩, ⟨A, 1⟩],
       [⟨C, [(sA, A)]⟩, ⟨B, [(sC, C)]⟩, ⟨A, [(sB, B)]⟩]⟩ := by
    simp [step, lookupA, hAB, hBA, hAC, hCA, hBC, hCB, jsFindIndex, jsSlice,
      List.findIdx?]
  have h4 : step (triangleG A B C sB sC sA)
      ⟨[(A, (⟨A, [(sB, B)]⟩, .Visiting)), (B, (⟨B, [(sC, C)]⟩, .Visiting)),
        (C, (⟨C, [(sA, A)]⟩, .Visiting))],
       [[⟨A, [(sB, B)]⟩, ⟨B, [(sC, C)]⟩, ⟨C, [(sA, A)]⟩, ⟨A, [(sB, B)]⟩]],
       [⟨C, 1⟩, ⟨B, 1⟩, ⟨A, 1⟩],
       [⟨C, [(sA, A)]⟩, ⟨B, [(sC, C)]⟩, ⟨A, [(sB, B)]⟩]⟩
    = ⟨[(A, (⟨A, [(sB, B)]⟩, .Visiting)), (B, (⟨B, [(sC, C)]⟩, .Visiting)),
        (C, (⟨C, [(sA, A)]⟩, .Visited))],
       [[⟨A, [(sB, B)]⟩, ⟨B, [(sC, C)]⟩, ⟨C, [(sA, A)]⟩, ⟨A, [(sB, B)]⟩]],
       [⟨B, 1⟩, ⟨A, 1⟩],
       [⟨B, [(sC, C)]⟩, ⟨A, [(sB, B)]⟩]⟩ := by
    simp [step, lookupA, setStatus, hAB, hBA, hAC, hCA, hBC, hCB]
  have h5 : step (triangleG A B C sB sC sA)
      ⟨[(A, (⟨A, [(sB, B)]⟩, .Visiting)), (B, (⟨B, [(sC, C)]⟩, .Visiting)),
        (C, (⟨C, [(sA, A)]⟩, .Visited))],
       [[⟨A, [(sB, B)]⟩, ⟨B, [(sC, C)]⟩, ⟨C, [(sA, A)]⟩, ⟨A, [(sB, B)]⟩]],
       [⟨B, 1⟩, ⟨A, 1⟩],
       [⟨B, [(sC, C)]⟩, ⟨A, [(sB, B)]⟩]⟩
    = ⟨[(A, (⟨A, [(sB, B)]⟩, .Visiting)), (B, (⟨B, [(sC, C)]⟩, .Visited)),
        (C, (⟨C, [(sA, A)]⟩, .Visited))],
       [[⟨A, [(sB, B)]⟩, ⟨B, [(sC, C)]⟩, ⟨C, [(sA, A)]⟩, ⟨A, [(sB, B)]⟩]],
       [⟨A, 1⟩],
       [⟨A, [(sB, B)]⟩]⟩ := by
    simp [step, lookupA, setStatus, hAB, hBA, hAC, hCA, hBC, hCB]
  have h6 : step (triangleG A B C sB sC sA)
      ⟨[(A, (⟨A, [(sB, B)]⟩, .Visiting)), (B, (⟨B, [(sC, C)]⟩, .Visited)),
        (C, (⟨C, [(sA, A)]⟩, .Visited))],
       [[⟨A, [(sB, B)]⟩, ⟨B, [(sC, C)]⟩, ⟨C, [(sA, A)]⟩, ⟨A, [(sB, B)]⟩]],
       [⟨A, 1⟩],
       [⟨A, [(sB, B)]⟩]⟩
    = ⟨[(A, (⟨A, [(sB, B)]⟩, .Visited)), (B, (⟨B, [(sC, C)]⟩, .Visited)),
        (C, (⟨C, [(sA, A)]⟩, .Visited))],
       [[⟨A, [(sB, B)]⟩, ⟨B, [(sC, C)]⟩, ⟨C, [(sA, A)]⟩, ⟨A, [(sB, B)]⟩]],
       [], []⟩ := by
    simp [step, lookupA, setStatus, hAB, hBA, hAC, hCA, hBC, hCB]
  obtain ⟨k, rfl⟩ : ∃ k, fuel = k + 6 := ⟨fuel - 6, by omega⟩
  rw [buildDependencyTreeAndDetectCycles, initState_eq, heffA]
  rw [run_step_ne _ (k + 5) _ (by simp), h1]
  rw [run_step_ne _ (k + 4) _ (by simp), h2]
  rw [run_step_ne _ (k + 3) _ (by simp), h3]
  rw [run_step_ne _ (k + 2) _ (by simp), h4]
  rw [run_step_ne _ (k + 1) _ (by simp), h5]
  rw [run_step_ne _ k _ (by simp), h6]
  rw [run_stack_nil _ _ _ rfl]

/-- C8: for every triangle-shaped dependency graph A→B→C→A (three distinct
files, arbitrary import specifiers, traversal entering at A), the single
reported cycle contains exactly the files A, B, C — in the traversal-order
rotation starting at the entry — with the starting node repeated once at
the end to close the loop; and when line info is found for each real edge,
enhanceCyclesWithLineInfo produces exactly the three entries A→B, B→C, C→A:
the wrapping pair (closing node, first node), whose importer and importee
are the same node, is skipped, so the closing edge is never duplicated. -/
theorem c8_triangle_cycle_and_enhancement (A B C sB sC sA : String) (fuel : Nat)
    (readF : String → Option String) (iab ibc ica : EnhancedImportInfo)
    (hAB : ¬ A = B) (hAC : ¬ A = C) (hBC : ¬ B = C) (hfuel : 10 ≤ fuel)
    (hab : findImportLineInfo readF ⟨A, [(sB, B)]⟩ ⟨B, [(sC, C)]⟩ = some iab)
    (hbc : findImportLineInfo readF ⟨B, [(sC, C)]⟩ ⟨C, [(sA, A)]⟩ = some ibc)
    (hca : findImportLineInfo readF ⟨C, [(sA, A)]⟩ ⟨A, [(sB, B)]⟩ = some ica) :
    (buildDependencyTreeAndDetectCycles (triangleG A B C sB sC sA) fuel A).cycles
      = [[⟨A, [(sB, B)]⟩, ⟨B, [(sC, C)]⟩, ⟨C, [(sA, A)]⟩, ⟨A, [(sB, B)]⟩]] ∧
    enhanceCyclesWithLineInfo readF
        (buildDependencyTreeAndDetectCycles (triangleG A B C sB sC sA) fuel A).cycles
      = [⟨[⟨A, [(sB, B)]⟩, ⟨B, [(sC, C)]⟩, ⟨C, [(sA, A)]⟩, ⟨A, [(sB, B)]⟩],
          [iab, ibc, ica]⟩] := by
  have hBA : ¬ B = A := fun h => hAB h.symm
  have hCA : ¬ C = A := fun h => hAC h.symm
  have hCB : ¬ C = B := fun h => hBC h.symm
  have hcyc := triangle_cycles A B C sB sC sA fuel hAB hAC hBC hfuel
  refine ⟨hcyc, ?_⟩
  rw [hcyc, enhanceCyclesWithLineInfo]
  simp only [List.map_cons, List.map_nil]
  congr 1
  rw [enhanceCycle]
  simp [show List.range 4 = [0, 1, 2, 3] from rfl, beq_iff_eq,
    DependencyNode.mk.injEq, hAB, hAC, hBC, hab, hbc, hca,
    hBA, hCA, hCB]

/-- Concrete file contents for the C8 witness triangle. -/
def c8readF : String → Option String := fun f =>
  if f = "/a.ts" then some "import x from \"./b\";"
  else if f = "/b.ts" then some "import y from \"./c\";"
  else if f = "/c.ts" then some "import z from \"./a\";"
  else none

theorem c8_witness :
    (buildDependencyTreeAndDetectCycles
        (triangleG "/a.ts" "/b.ts" "/c.ts" "./b" "./c" "./a") 10 "/a.ts").cycles
      = [[⟨"/a.ts", [("./b", "/b.ts")]⟩, ⟨"/b.ts", [("./c", "/c.ts")]⟩,
          ⟨"/c.ts", [("./a", "/a.ts")]⟩, ⟨"/a.ts", [("./b", "/b.ts")]⟩]] ∧
    enhanceCyclesWithLineInfo c8readF
        (buildDependencyTreeAndDetectCycles
          (triangleG "/a.ts" "/b.ts" "/c.ts" "./b" "./c" "./a") 10 "/a.ts").cycles
      = [⟨[⟨"/a.ts", [("./b", "/b.ts")]⟩, ⟨"/b.ts", [("./c", "/c.ts")]⟩,
           ⟨"/c.ts", [("./a", "/a.ts")]⟩, ⟨"/a.ts", [("./b", "/b.ts")]⟩],
          [⟨"/a.ts", "/b.ts", "./b", 1, "import x from \"./b\";", none, none⟩,
           ⟨"/b.ts", "/c.ts", "./c", 1, "import y from \"./c\";", none, none⟩,
           ⟨"/c.ts", "/a.ts", "./a", 1, "import z from \"./a\";", none, none⟩]⟩] :=
  c8_triangle_cycle_and_enhancement "/a.ts" "/b.ts" "/c.ts" "./b" "./c" "./a" 10
    c8readF
    ⟨"/a.ts", "/b.ts", "./b", 1, "import x from \"./b\";", none, none⟩
    ⟨"/b.ts", "/c.ts", "./c", 1, "import y from \"./c\";", none, none⟩
    ⟨"/c.ts", "/a.ts", "./a", 1, "import z from \"./a\";", none, none⟩
    (by decide) (by decide) (by decide) (by decide)
    (by rfl) (by rfl) (by rfl)

end BunImportCheck
